import Mathlib

/-!
Verification of the `TaskMgr` work-queue scheduler (`src/TaskMgr.ts`).

The class `TaskMgr` is embedded shallowly as a state type `World` together
with executable transition functions that mirror the TypeScript methods
line by line:

* `addTask`, `cancelTask`, `isTaskAlive`, `clear` — the public API;
* `_step`, `checkAndClearCanceled`, `handleFunctionTask`, `handleAsyncTask`
  — the internal loop;
* promise settlement (the reactions registered by `handleAsyncTask` via
  `promise.then(onFulfilled, onRejected)`) is modelled by a list of pending
  `Reaction`s in the state; an external `Action.settle` event consumes one
  reaction and runs the corresponding handler, exactly the code of the two
  arrow functions.  (The trailing `.catch` of the promise chain fires only
  when a user callback itself throws; callbacks are abstract here and never
  throw, so that handler is unreachable and not modelled.)

A task's callable (`task.task()`) is abstracted as a list of side effects it
performs on the manager (`cancelTask` calls and/or `clear` calls — the two
reentrant interactions the claims are about) followed by its outcome: an
immediate value, a synchronous throw, or a promise.

User-visible behavior is recorded in a ghost event trace: `bodyRun` when a
callable is invoked, `valueDelivered`/`errorDelivered` when the scheduler
reaches the corresponding delivery point, `resolveCb`/`rejectCb`/`catchCb`
when a user callback is invoked, and the two distinguishable `console.error`
diagnostics `diagSync`/`diagAsync`.

JS numeric details are kept: the id computed by `addTask` is
`(nextId++ << sessionId) >>> 0`, i.e. `nextId * 2^(sessionId % 32) % 2^32`;
`Set`s are duplicate-free lists, `Map`s association lists with JS
insertion-order update semantics.
-/

namespace TaskMgr

/-- Outcome kind of a callable: an immediate value, a synchronous throw,
or a returned `Promise`. -/
inductive TResult : Type
  | value : TResult
  | thrown : TResult
  | promise : TResult
deriving DecidableEq, Repr

/-- Side effects a callable may perform on the manager while its body runs. -/
inductive BodyEff : Type
  | cancel (id : Nat) : BodyEff
  | clearAll : BodyEff
deriving DecidableEq, Repr

/-- The `ITask` interface: the callable (abstracted as its effects and its
result kind), the mandatory description, and presence flags for the three
optional callbacks plus the fire-and-forget flag. -/
structure ITask : Type where
  effects : List BodyEff
  result : TResult
  taskDesc : String
  hasResolve : Bool
  donotWaitAsync : Bool
  hasReject : Bool
  hasCatch : Bool
deriving DecidableEq, Repr

/-- `TaskInfo = ITask & { id : number }`. -/
structure TaskInfo extends ITask : Type where
  id : Nat
deriving DecidableEq, Repr

/-- Ghost trace events recording user-visible behavior. -/
inductive Event : Type
  | bodyRun (id : Nat) : Event
  | valueDelivered (id : Nat) : Event
  | errorDelivered (id : Nat) : Event
  | resolveCb (id : Nat) : Event
  | rejectCb (id : Nat) : Event
  | catchCb (id : Nat) : Event
  | diagSync (id : Nat) (desc : String) : Event
  | diagAsync (id : Nat) (desc : String) : Event
deriving DecidableEq, Repr

/-- The task id an event concerns. -/
def eventId : Event → Nat
  | .bodyRun i => i
  | .valueDelivered i => i
  | .errorDelivered i => i
  | .resolveCb i => i
  | .rejectCb i => i
  | .catchCb i => i
  | .diagSync i _ => i
  | .diagAsync i _ => i

/-- A promise reaction registered by `handleAsyncTask`: the task and the
session id captured at dispatch time. -/
structure Reaction : Type where
  task : TaskInfo
  sessionId : Nat
deriving DecidableEq, Repr

/-- The full state: the `TaskMgr` fields, the pending promise reactions,
and the ghost trace. -/
structure World : Type where
  nextId : Nat
  running : Bool
  runningTasks : List (Nat × TaskInfo)
  taskCancelSet : List Nat
  sessionId : Nat
  tasks : List TaskInfo
  pending : List Reaction
  trace : List Event
deriving DecidableEq, Repr

/-- `TaskMgr.create()` / `new TaskMgr()`. -/
def create : World :=
  { nextId := 1, running := false, runningTasks := [], taskCancelSet := [],
    sessionId := 0, tasks := [], pending := [], trace := [] }

/-- JS `Set.add`: no-op when the element is present, else append. -/
def setAdd (s : List Nat) (id : Nat) : List Nat :=
  if id ∈ s then s else s ++ [id]

/-- JS `Map.set`: update in place when the key is present, else append. -/
def mapSet (m : List (Nat × TaskInfo)) (k : Nat) (v : TaskInfo) :
    List (Nat × TaskInfo) :=
  if m.any (fun p => p.1 = k) then
    m.map (fun p => if p.1 = k then (k, v) else p)
  else m ++ [(k, v)]

/-- `cancelTask(id)`: `this._taskCancelSet.add(id)`. -/
def cancelTask (w : World) (id : Nat) : World :=
  { w with taskCancelSet := setAdd w.taskCancelSet id }

/-- `clear()`: bump the session id, empty the queue, the cancel set and the
running map, reset the loop to idle.  In-flight promise reactions are left
untouched. -/
def clear (w : World) : World :=
  { w with sessionId := w.sessionId + 1, tasks := [], taskCancelSet := [],
           running := false, runningTasks := [] }

/-- One side effect of a callable's body. -/
def bodyEffApply (w : World) : BodyEff → World
  | .cancel id => cancelTask w id
  | .clearAll => clear w

/-- All side effects of a callable's body, in order. -/
def runEffects (w : World) (es : List BodyEff) : World :=
  es.foldl bodyEffApply w

/-- `checkAndClearCanceled(taskId)`: when the id is marked, remove it from
the cancel set and the running map and report `true`. -/
def checkAndClearCanceled (w : World) (taskId : Nat) : World × Bool :=
  if taskId ∈ w.taskCancelSet then
    ({ w with taskCancelSet := w.taskCancelSet.erase taskId,
              runningTasks := w.runningTasks.filter (fun p => p.1 ≠ taskId) },
     true)
  else (w, false)

/-- `handleAsyncTask(task, promise, sessionId)` minus the settlement
handlers (which run later, see `settleReaction`): register the reaction and
report whether `_step` must be called now (`!shouldWait`).  All `_step`
calls in the source are tail calls, so the internal loop is written with a
continue flag instead of recursion through this function. -/
def handleAsyncTask (w : World) (task : TaskInfo) (sessionId : Nat) :
    World × Bool :=
  let shouldWait := !task.donotWaitAsync
  ({ w with pending := w.pending ++ [⟨task, sessionId⟩] }, !shouldWait)

/-- `handleFunctionTask(task)`: run the callable, unify the three outcome
kinds, honoring the session guard on the synchronous paths.  Returns the
new state and whether the loop should advance now (the `finally` block's
`_step`, or `handleAsyncTask`'s immediate `_step` for fire-and-forget). -/
def handleFunctionTask (w : World) (task : TaskInfo) : World × Bool :=
  let currentSession := w.sessionId
  let w1 := runEffects { w with trace := w.trace ++ [Event.bodyRun task.id] }
      task.effects
  match task.result with
  | .promise =>
      -- isAsync = true: the finally block does nothing.
      handleAsyncTask w1 task currentSession
  | .value =>
      let w2 :=
        if w1.sessionId = currentSession then
          let wa := { w1 with
            trace := w1.trace ++ [Event.valueDelivered task.id] }
          if task.hasResolve then
            { wa with trace := wa.trace ++ [Event.resolveCb task.id] }
          else wa
        else w1
      if w2.sessionId = currentSession then
        ({ w2 with runningTasks :=
            w2.runningTasks.filter (fun p => p.1 ≠ task.id) }, true)
      else (w2, false)
  | .thrown =>
      let w2 :=
        if w1.sessionId = currentSession then
          let wa := { w1 with
            trace := w1.trace ++ [Event.errorDelivered task.id] }
          if task.hasCatch then
            { wa with trace := wa.trace ++ [Event.catchCb task.id] }
          else
            { wa with
              trace := wa.trace ++ [Event.diagSync task.id task.taskDesc] }
        else w1
      if w2.sessionId = currentSession then
        ({ w2 with runningTasks :=
            w2.runningTasks.filter (fun p => p.1 ≠ task.id) }, true)
      else (w2, false)

/-- Fuel-indexed body of `_step()`: pop the front entry; when the queue is
empty go idle; a cancelled entry is discarded silently and the loop
retries; otherwise the entry is recorded in `_runningTasks` and processed,
and the loop continues whenever a (tail-positioned) `_step()` call would
fire in the source.  The fuel bounds the number of pops; since each
iteration shortens the queue and a body can only shrink it further,
`w.tasks.length + 1` always suffices (`stepFuel_congr` below). -/
def stepFuel : Nat → World → World
  | 0, w => w
  | fuel + 1, w =>
    match w.tasks with
    | [] => { w with running := false }
    | task :: rest =>
      let w1 : World := { w with tasks := rest }
      let c := checkAndClearCanceled w1 task.id
      if c.2 then stepFuel fuel c.1
      else
        let w3 : World := { c.1 with
          runningTasks := mapSet c.1.runningTasks task.id task }
        let r := handleFunctionTask w3 task
        if r.2 then stepFuel fuel r.1 else r.1

/-- `_step()`, with the always-sufficient fuel. -/
def _step (w : World) : World :=
  stepFuel (w.tasks.length + 1) w

/-- `addTask(task)`: assign `(nextId++ << sessionId) >>> 0`, push the entry,
kick the loop when idle, return the id. -/
def addTask (w : World) (t : ITask) : World × Nat :=
  let id := (w.nextId % 2 ^ 32) * 2 ^ (w.sessionId % 32) % 2 ^ 32
  let w1 : World := { w with nextId := w.nextId + 1,
                             tasks := w.tasks ++ [⟨t, id⟩] }
  if w1.running then (w1, id)
  else (_step { w1 with running := true }, id)

/-- `isTaskAlive(taskId)`. -/
def isTaskAlive (w : World) (taskId : Nat) : Bool :=
  if taskId ∈ w.taskCancelSet then false
  else if w.runningTasks.any (fun p => p.1 = taskId) then true
  else w.tasks.any (fun t => t.id = taskId)

/-- How a promise settles. -/
inductive Settlement : Type
  | fulfilled : Settlement
  | rejected : Settlement
deriving DecidableEq, Repr

/-- The two settlement handlers registered by `handleAsyncTask`
(`promise.then(onFulfilled, onRejected)`): session guard, running-map
delete, cancellation check, callback dispatch, then `_step` in wait mode. -/
def settleReaction (w : World) (r : Reaction) (oc : Settlement) : World :=
  let task := r.task
  let shouldWait := !task.donotWaitAsync
  if w.sessionId ≠ r.sessionId then w
  else
    let w1 : World := { w with
      runningTasks := w.runningTasks.filter (fun p => p.1 ≠ task.id) }
    let cc := checkAndClearCanceled w1 task.id
    let w3 :=
      if cc.2 then cc.1
      else
        match oc with
        | .fulfilled =>
            let wa := { cc.1 with
              trace := cc.1.trace ++ [Event.valueDelivered task.id] }
            if task.hasResolve then
              { wa with trace := wa.trace ++ [Event.resolveCb task.id] }
            else wa
        | .rejected =>
            let wa := { cc.1 with
              trace := cc.1.trace ++ [Event.errorDelivered task.id] }
            if task.hasReject then
              { wa with trace := wa.trace ++ [Event.rejectCb task.id] }
            else if task.hasCatch then
              { wa with trace := wa.trace ++ [Event.catchCb task.id] }
            else
              { wa with
                trace := wa.trace ++ [Event.diagAsync task.id task.taskDesc] }
    if shouldWait then _step w3 else w3

/-- External stimuli: the public API calls plus settlement of the `k`-th
pending promise (promises settle at most once: the reaction is consumed). -/
inductive Action : Type
  | add (t : ITask) : Action
  | cancel (id : Nat) : Action
  | clearAll : Action
  | settle (k : Nat) (oc : Settlement) : Action
deriving DecidableEq, Repr

/-- One external event. -/
def exec (w : World) : Action → World
  | .add t => (addTask w t).1
  | .cancel id => cancelTask w id
  | .clearAll => clear w
  | .settle k oc =>
      match w.pending[k]? with
      | none => w
      | some r => settleReaction { w with pending := w.pending.eraseIdx k } r oc

/-- Run an event sequence from a fresh manager. -/
def run (acts : List Action) : World :=
  acts.foldl exec create

/-! ### Definitions supporting the claim statements -/

/-- The state in which a freshly popped live task is processed: the tail of
the queue, with the task recorded in `_runningTasks`. -/
def dispatchW (w : World) (task : TaskInfo) (rest : List TaskInfo) : World :=
  { w with
    tasks := rest,
    runningTasks := mapSet w.runningTasks task.id task }

/-- A wait-mode task whose body performs no reentrant manager calls. -/
def waitPure (t : ITask) : Bool :=
  !t.donotWaitAsync && t.effects.isEmpty

/-- Actions in scope of the wait-mode ordering claim: submissions of
wait-mode effect-free tasks, and settlements. -/
def orderedAct : Action → Bool
  | .add t => waitPure t
  | .settle _ _ => true
  | .cancel _ => false
  | .clearAll => false

/-- Is this event the delivery of task `i`'s outcome (value or error)? -/
def isDeliveryOf (i : Nat) (e : Event) : Bool :=
  e = Event.valueDelivered i ∨ e = Event.errorDelivered i

/-- Tag the tasks of `ts` with consecutive ids starting at `n`. -/
def mkInfos : List ITask → Nat → List TaskInfo
  | [], _ => []
  | t :: ts, n => ⟨t, n⟩ :: mkInfos ts (n + 1)

/-- Event ids never decrease along the trace. -/
def sortedIds (tr : List Event) : Prop :=
  tr.Pairwise (fun a b => eventId a ≤ eventId b)

/-- All events of the trace concern ids at most `m`. -/
def idsLe (tr : List Event) (m : Nat) : Prop :=
  ∀ e ∈ tr, eventId e ≤ m

/-- Tasks `1..d` all have a delivery event in the trace. -/
def deliveredUpTo (tr : List Event) (d : Nat) : Prop :=
  ∀ k, 1 ≤ k → k ≤ d →
    Event.valueDelivered k ∈ tr ∨ Event.errorDelivered k ∈ tr

/-- Idle state reached after a wait-mode-only history: `d = n` tasks all
delivered. -/
def idleW (n : Nat) (tr : List Event) : World :=
  { nextId := n + 1, running := false, runningTasks := [],
    taskCancelSet := [], sessionId := 0, tasks := [], pending := [],
    trace := tr }

/-- Running state of a wait-mode-only history: the dispatched task `info`
awaits its promise, the rest of the queue behind it. -/
def waitW (n : Nat) (info : TaskInfo) (rest : List TaskInfo)
    (tr : List Event) : World :=
  { nextId := n + 1, running := true, runningTasks := [(info.id, info)],
    taskCancelSet := [], sessionId := 0, tasks := rest,
    pending := [⟨info, 0⟩], trace := tr }

/-- Intermediate state on entry to `_step` during a wait-mode-only history:
the loop is live, nothing in flight, queue `ts`. -/
def readyW (n : Nat) (ts : List TaskInfo) (tr : List Event) : World :=
  { nextId := n + 1, running := true, runningTasks := [],
    taskCancelSet := [], sessionId := 0, tasks := ts, pending := [],
    trace := tr }

/-- Invariant of wait-mode-only histories (claim C1): the reachable state is
either idle with every submitted task delivered, or has exactly the
`(d+1)`-st task in flight; the trace has non-decreasing event ids, mentions
only dispatched tasks, and contains a delivery for every completed task. -/
def C1Inv (specs : List ITask) (w : World) : Prop :=
  (∀ t ∈ specs, waitPure t = true) ∧
  ((w = idleW specs.length w.trace ∧ sortedIds w.trace ∧
      idsLe w.trace specs.length ∧ deliveredUpTo w.trace specs.length) ∨
    (∃ d t, d < specs.length ∧ specs[d]? = some t ∧
      t.result = TResult.promise ∧
      w = waitW specs.length ⟨t, d + 1⟩
        (mkInfos (specs.drop (d + 1)) (d + 2)) w.trace ∧
      sortedIds w.trace ∧ idsLe w.trace (d + 1) ∧
      deliveredUpTo w.trace d))

/-- Ids handed out by a sequence of consecutive `addTask` calls. -/
def submitIds (w : World) : List ITask → List Nat
  | [] => []
  | t :: ts => (addTask w t).2 :: submitIds (addTask w t).1 ts

/-- A neutral effect-free synchronous task used in concrete scenarios. -/
def plainTask (d : String) : ITask :=
  { effects := [], result := TResult.value, taskDesc := d,
    hasResolve := true, donotWaitAsync := false, hasReject := false,
    hasCatch := false }

/-- An effect-free wait-mode asynchronous task used in concrete scenarios. -/
def promiseTask (d : String) : ITask :=
  { plainTask d with result := TResult.promise }

/-! ### Basic unfolding and preservation lemmas -/

theorem checkAndClearCanceled_tasks (w : World) (id : Nat) :
    (checkAndClearCanceled w id).1.tasks = w.tasks := by
  unfold checkAndClearCanceled
  split <;> rfl

theorem bodyEffApply_tasks_length (w : World) (e : BodyEff) :
    (bodyEffApply w e).tasks.length ≤ w.tasks.length := by
  cases e <;> simp [bodyEffApply, cancelTask, clear]

theorem runEffects_tasks_length (es : List BodyEff) (w : World) :
    (runEffects w es).tasks.length ≤ w.tasks.length := by
  induction es generalizing w with
  | nil => exact le_refl _
  | cons e es ih =>
      exact le_trans (ih (bodyEffApply w e)) (bodyEffApply_tasks_length w e)

theorem handleFunctionTask_tasks_length (w : World) (task : TaskInfo) :
    (handleFunctionTask w task).1.tasks.length ≤ w.tasks.length := by
  have key : ∀ tr, (runEffects { w with trace := tr }
      task.effects).tasks.length ≤ w.tasks.length := by
    intro tr
    exact runEffects_tasks_length task.effects { w with trace := tr }
  cases htr : task.result <;>
    simp only [handleFunctionTask, handleAsyncTask, htr] <;>
    (try split) <;> (try split) <;> (try split) <;> simp [key]

/-- One unfolding of `stepFuel` on a non-empty queue. -/
theorem stepFuel_cons (fuel : Nat) (w : World) (task : TaskInfo)
    (rest : List TaskInfo) (h : w.tasks = task :: rest) :
    stepFuel (fuel + 1) w =
      (if task.id ∈ w.taskCancelSet then
        stepFuel fuel
          { w with
            tasks := rest,
            taskCancelSet := w.taskCancelSet.erase task.id,
            runningTasks := w.runningTasks.filter (fun p => p.1 ≠ task.id) }
       else if (handleFunctionTask (dispatchW w task rest) task).2 then
        stepFuel fuel (handleFunctionTask (dispatchW w task rest) task).1
       else (handleFunctionTask (dispatchW w task rest) task).1) := by
  simp only [stepFuel, h]
  by_cases hc : task.id ∈ w.taskCancelSet
  · simp [checkAndClearCanceled, hc, dispatchW]
  · simp [checkAndClearCanceled, hc, dispatchW]

/-- Any two sufficient fuels agree: `stepFuel` with fuel exceeding the
queue length computes the loop's unique fixpoint. -/
theorem stepFuel_congr (n : Nat) : ∀ (m : Nat) (w : World),
    w.tasks.length < n → w.tasks.length < m → stepFuel n w = stepFuel m w := by
  induction n using Nat.strong_induction_on with
  | _ n ih =>
  intro m w hn hm
  match n, hn with
  | n + 1, hn =>
  match m, hm with
  | m + 1, hm =>
  cases htasks : w.tasks with
  | nil => simp only [stepFuel, htasks]
  | cons task rest =>
      have hrest : rest.length < n := by
        rw [htasks] at hn
        simpa using Nat.lt_of_succ_lt_succ hn
      have hrest' : rest.length < m := by
        rw [htasks] at hm
        simpa using Nat.lt_of_succ_lt_succ hm
      rw [stepFuel_cons n w task rest htasks,
        stepFuel_cons m w task rest htasks]
      by_cases hc : task.id ∈ w.taskCancelSet
      · rw [if_pos hc, if_pos hc]
        exact ih n (Nat.lt_succ_self n) m _ (by simpa using hrest)
          (by simpa using hrest')
      · rw [if_neg hc, if_neg hc]
        have hlen : (handleFunctionTask (dispatchW w task rest)
            task).1.tasks.length ≤ rest.length :=
          handleFunctionTask_tasks_length (dispatchW w task rest) task
        by_cases hcont : (handleFunctionTask (dispatchW w task rest) task).2
        · rw [if_pos hcont, if_pos hcont]
          exact ih n (Nat.lt_succ_self n) m _ (by omega) (by omega)
        · rw [if_neg hcont, if_neg hcont]

theorem _step_eq_fuel (w : World) (fuel : Nat)
    (hf : w.tasks.length < fuel) : _step w = stepFuel fuel w :=
  stepFuel_congr (w.tasks.length + 1) fuel w (Nat.lt_succ_self _) hf

theorem _step_nil (w : World) (h : w.tasks = []) :
    _step w = { w with running := false } := by
  unfold _step
  simp only [h, List.length_nil, stepFuel]

theorem _step_cons_cancelled (w : World) (task : TaskInfo)
    (rest : List TaskInfo) (h : w.tasks = task :: rest)
    (hc : task.id ∈ w.taskCancelSet) :
    _step w = _step
      { w with
        tasks := rest,
        taskCancelSet := w.taskCancelSet.erase task.id,
        runningTasks := w.runningTasks.filter (fun p => p.1 ≠ task.id) } := by
  have e1 : _step w = stepFuel (rest.length + 1 + 1) w :=
    _step_eq_fuel w _ (by rw [h]; simp)
  rw [e1, stepFuel_cons (rest.length + 1) w task rest h, if_pos hc]
  exact (_step_eq_fuel _ _ (by simp)).symm

theorem _step_cons_live (w : World) (task : TaskInfo)
    (rest : List TaskInfo) (h : w.tasks = task :: rest)
    (hc : task.id ∉ w.taskCancelSet) :
    _step w =
      (if (handleFunctionTask (dispatchW w task rest) task).2
       then _step (handleFunctionTask (dispatchW w task rest) task).1
       else (handleFunctionTask (dispatchW w task rest) task).1) := by
  have e1 : _step w = stepFuel (rest.length + 1 + 1) w :=
    _step_eq_fuel w _ (by rw [h]; simp)
  rw [e1, stepFuel_cons (rest.length + 1) w task rest h, if_neg hc]
  have hlen : (handleFunctionTask (dispatchW w task rest)
      task).1.tasks.length ≤ rest.length :=
    handleFunctionTask_tasks_length (dispatchW w task rest) task
  by_cases hcont : (handleFunctionTask (dispatchW w task rest) task).2
  · rw [if_pos hcont, if_pos hcont]
    exact (_step_eq_fuel _ _ (by omega)).symm
  · rw [if_neg hcont, if_neg hcont]

theorem runEffects_trace (es : List BodyEff) (w : World) :
    (runEffects w es).trace = w.trace := by
  induction es generalizing w with
  | nil => rfl
  | cons e es ih =>
      have h1 : (bodyEffApply w e).trace = w.trace := by
        cases e <;> rfl
      calc (runEffects w (e :: es)).trace
          = (runEffects (bodyEffApply w e) es).trace := rfl
        _ = (bodyEffApply w e).trace := ih (bodyEffApply w e)
        _ = w.trace := h1

theorem runEffects_nextId (es : List BodyEff) (w : World) :
    (runEffects w es).nextId = w.nextId := by
  induction es generalizing w with
  | nil => rfl
  | cons e es ih =>
      have h1 : (bodyEffApply w e).nextId = w.nextId := by
        cases e <;> rfl
      calc (runEffects w (e :: es)).nextId
          = (bodyEffApply w e).nextId := ih (bodyEffApply w e)
        _ = w.nextId := h1

theorem runEffects_pending (es : List BodyEff) (w : World) :
    (runEffects w es).pending = w.pending := by
  induction es generalizing w with
  | nil => rfl
  | cons e es ih =>
      have h1 : (bodyEffApply w e).pending = w.pending := by
        cases e <;> rfl
      calc (runEffects w (e :: es)).pending
          = (bodyEffApply w e).pending := ih (bodyEffApply w e)
        _ = w.pending := h1

theorem runEffects_tasks_cases (es : List BodyEff) (w : World) :
    (runEffects w es).tasks = w.tasks ∨ (runEffects w es).tasks = [] := by
  induction es generalizing w with
  | nil => exact Or.inl rfl
  | cons e es ih =>
      rcases ih (bodyEffApply w e) with h | h
      · cases e with
        | cancel id =>
            exact Or.inl (by
              calc (runEffects w (.cancel id :: es)).tasks
                  = (bodyEffApply w (.cancel id)).tasks := h
                _ = w.tasks := rfl)
        | clearAll =>
            exact Or.inr (by
              calc (runEffects w (.clearAll :: es)).tasks
                  = (bodyEffApply w .clearAll).tasks := h
                _ = [] := rfl)
      · exact Or.inr h

theorem runEffects_session_mono (es : List BodyEff) (w : World) :
    w.sessionId ≤ (runEffects w es).sessionId := by
  induction es generalizing w with
  | nil => exact le_refl _
  | cons e es ih =>
      have h1 : w.sessionId ≤ (bodyEffApply w e).sessionId := by
        cases e <;> simp [bodyEffApply, cancelTask, clear]
      exact le_trans h1 (ih (bodyEffApply w e))

/-- When the body performs no `clear`, the session id is untouched. -/
theorem runEffects_session_noClear (es : List BodyEff) (w : World)
    (h : BodyEff.clearAll ∉ es) :
    (runEffects w es).sessionId = w.sessionId := by
  induction es generalizing w with
  | nil => rfl
  | cons e es ih =>
      have he : e ≠ BodyEff.clearAll := fun hx => h (hx ▸ List.mem_cons_self e es)
      have hes : BodyEff.clearAll ∉ es := fun hx => h (List.mem_cons_of_mem e hx)
      have h1 : (bodyEffApply w e).sessionId = w.sessionId := by
        cases e with
        | cancel id => rfl
        | clearAll => exact absurd rfl he
      calc (runEffects w (e :: es)).sessionId
          = (bodyEffApply w e).sessionId := ih (bodyEffApply w e) hes
        _ = w.sessionId := h1

theorem handleFunctionTask_trace (w : World) (task : TaskInfo) :
    ∃ chunk, (handleFunctionTask w task).1.trace = w.trace ++ chunk ∧
      ∀ e ∈ chunk, eventId e = task.id := by
  have hre : ∀ (x : World), (runEffects x task.effects).trace = x.trace :=
    fun x => runEffects_trace task.effects x
  cases htr : task.result <;>
    simp only [handleFunctionTask, handleAsyncTask, htr] <;>
    (try split) <;> (try split) <;> (try split) <;>
    first
      | ((refine ⟨[Event.bodyRun task.id, Event.valueDelivered task.id,
          Event.resolveCb task.id], ?_, ?_⟩ <;> simp [hre, eventId]); done)
      | ((refine ⟨[Event.bodyRun task.id, Event.valueDelivered task.id],
          ?_, ?_⟩ <;> simp [hre, eventId]); done)
      | ((refine ⟨[Event.bodyRun task.id, Event.errorDelivered task.id,
          Event.catchCb task.id], ?_, ?_⟩ <;> simp [hre, eventId]); done)
      | ((refine ⟨[Event.bodyRun task.id, Event.errorDelivered task.id,
          Event.diagSync task.id task.taskDesc], ?_, ?_⟩ <;>
          simp [hre, eventId]); done)
      | ((refine ⟨[Event.bodyRun task.id], ?_, ?_⟩ <;>
          simp [hre, eventId]); done)

theorem handleFunctionTask_tasks_cases (w : World) (task : TaskInfo) :
    (handleFunctionTask w task).1.tasks = w.tasks ∨
      (handleFunctionTask w task).1.tasks = [] := by
  have key := runEffects_tasks_cases task.effects
    { w with trace := w.trace ++ [Event.bodyRun task.id] }
  cases htr : task.result <;>
    simp only [handleFunctionTask, handleAsyncTask, htr] <;>
    (try split) <;> (try split) <;> (try split) <;> simp_all

theorem handleFunctionTask_nextId (w : World) (task : TaskInfo) :
    (handleFunctionTask w task).1.nextId = w.nextId := by
  have key := runEffects_nextId task.effects
    { w with trace := w.trace ++ [Event.bodyRun task.id] }
  cases htr : task.result <;>
    simp only [handleFunctionTask, handleAsyncTask, htr] <;>
    (try split) <;> (try split) <;> (try split) <;> simp_all

/-- When the body does perform a `clear`, the session id strictly grows. -/
theorem runEffects_session_clear (es : List BodyEff) (w : World)
    (h : BodyEff.clearAll ∈ es) :
    w.sessionId < (runEffects w es).sessionId := by
  induction es generalizing w with
  | nil => exact absurd h (by simp)
  | cons e es ih =>
      by_cases he : e = BodyEff.clearAll
      · subst he
        have h1 : w.sessionId < (bodyEffApply w .clearAll).sessionId := by
          simp [bodyEffApply, clear]
        exact lt_of_lt_of_le h1 (runEffects_session_mono es _)
      · have hes : BodyEff.clearAll ∈ es := by
          rcases List.mem_cons.mp h with h' | h'
          · exact absurd h'.symm he
          · exact h'
        have h1 : (bodyEffApply w e).sessionId = w.sessionId := by
          cases e with
          | cancel id => rfl
          | clearAll => exact absurd rfl he
        have := ih (bodyEffApply w e) hes
        rw [h1] at this
        exact this

/-- A callable with an empty effect list leaves every scheduler field but
the running map, the pending list and the trace unchanged. -/
theorem handleFunctionTask_pure (w : World) (task : TaskInfo)
    (h : task.effects = []) :
    (handleFunctionTask w task).1.tasks = w.tasks ∧
      (handleFunctionTask w task).1.taskCancelSet = w.taskCancelSet ∧
      (handleFunctionTask w task).1.sessionId = w.sessionId := by
  cases htr : task.result <;>
    simp only [handleFunctionTask, handleAsyncTask, htr, h, runEffects,
      List.foldl_nil] <;>
    (try split) <;> (try split) <;> (try split) <;> simp_all

theorem handleFunctionTask_session_noClear (w : World) (task : TaskInfo)
    (h : BodyEff.clearAll ∉ task.effects) :
    (handleFunctionTask w task).1.sessionId = w.sessionId := by
  have key := runEffects_session_noClear task.effects
    { w with trace := w.trace ++ [Event.bodyRun task.id] } h
  cases htr : task.result <;>
    simp only [handleFunctionTask, handleAsyncTask, htr] <;>
    (try split) <;> (try split) <;> (try split) <;> simp_all

theorem handleFunctionTask_tasks_noClear (w : World) (task : TaskInfo)
    (h : BodyEff.clearAll ∉ task.effects) :
    (handleFunctionTask w task).1.tasks = w.tasks := by
  have key : ∀ (x : World) (es : List BodyEff), BodyEff.clearAll ∉ es →
      (runEffects x es).tasks = x.tasks := by
    intro x es
    induction es generalizing x with
    | nil => intro _; rfl
    | cons e es ihe =>
        intro hm
        have he : e ≠ BodyEff.clearAll := fun hx =>
          hm (hx ▸ List.mem_cons_self e es)
        have hes : BodyEff.clearAll ∉ es := fun hx =>
          hm (List.mem_cons_of_mem e hx)
        have h1 : (bodyEffApply x e).tasks = x.tasks := by
          cases e with
          | cancel id => rfl
          | clearAll => exact absurd rfl he
        calc (runEffects x (e :: es)).tasks
            = (bodyEffApply x e).tasks := ihe (bodyEffApply x e) hes
          _ = x.tasks := h1
  have key2 := key { w with trace := w.trace ++ [Event.bodyRun task.id] }
    task.effects h
  cases htr : task.result <;>
    simp only [handleFunctionTask, handleAsyncTask, htr] <;>
    (try split) <;> (try split) <;> (try split) <;> simp_all

/-- `_step` only ever appends to the trace, and every appended event
concerns the id of some task queued when the step began. -/
theorem _step_trace (w : World) :
    ∃ new, (_step w).trace = w.trace ++ new ∧
      ∀ e ∈ new, eventId e ∈ w.tasks.map (fun t => t.id) := by
  generalize hn : w.tasks.length = n
  induction n using Nat.strong_induction_on generalizing w with
  | _ n ih =>
  cases htasks : w.tasks with
  | nil =>
      rw [_step_nil w htasks]
      exact ⟨[], by simp, by simp⟩
  | cons task rest =>
      by_cases hc : task.id ∈ w.taskCancelSet
      · rw [_step_cons_cancelled w task rest htasks hc]
        obtain ⟨new, h1, h2⟩ := ih rest.length
          (by rw [← hn, htasks]; simp)
          { w with
            tasks := rest,
            taskCancelSet := w.taskCancelSet.erase task.id,
            runningTasks := w.runningTasks.filter (fun p => p.1 ≠ task.id) }
          rfl
        refine ⟨new, by simpa using h1, ?_⟩
        intro e he
        have h3 : eventId e ∈ rest.map (fun t => t.id) := h2 e he
        simp only [htasks, List.map_cons, List.mem_cons]
        exact Or.inr h3
      · rw [_step_cons_live w task rest htasks hc]
        obtain ⟨chunk, hch1, hch2⟩ :=
          handleFunctionTask_trace (dispatchW w task rest) task
        have hch1' : (handleFunctionTask (dispatchW w task rest) task).1.trace
            = w.trace ++ chunk := hch1
        have hts : (handleFunctionTask (dispatchW w task rest) task).1.tasks
            = rest ∨
            (handleFunctionTask (dispatchW w task rest) task).1.tasks = [] :=
          handleFunctionTask_tasks_cases (dispatchW w task rest) task
        have hchmem : ∀ e ∈ chunk, eventId e ∈
            (task :: rest).map (fun t => t.id) := by
          intro e he
          simp only [List.map_cons, List.mem_cons]
          exact Or.inl (hch2 e he)
        by_cases hcont : (handleFunctionTask (dispatchW w task rest) task).2
        · rw [if_pos hcont]
          have hlt : (handleFunctionTask (dispatchW w task rest)
              task).1.tasks.length < n := by
            rcases hts with h' | h' <;> rw [h'] <;>
              (rw [← hn, htasks]; simp)
          obtain ⟨new2, h21, h22⟩ := ih
            (handleFunctionTask (dispatchW w task rest) task).1.tasks.length
            hlt (handleFunctionTask (dispatchW w task rest) task).1 rfl
          refine ⟨chunk ++ new2, ?_, ?_⟩
          · rw [h21, hch1']
            simp
          · intro e he
            rcases List.mem_append.mp he with he' | he'
            · exact hchmem e he'
            · have h3 := h22 e he'
              rcases hts with h' | h'
              · rw [h'] at h3
                simp only [List.map_cons, List.mem_cons]
                have h4 : eventId e ∈ rest.map (fun t => t.id) := h3
                exact Or.inr h4
              · rw [h'] at h3
                simp at h3
        · rw [if_neg hcont]
          exact ⟨chunk, hch1', hchmem⟩

/-- `_step` never touches `_nextId`. -/
theorem _step_nextId (w : World) : (_step w).nextId = w.nextId := by
  generalize hn : w.tasks.length = n
  induction n using Nat.strong_induction_on generalizing w with
  | _ n ih =>
  cases htasks : w.tasks with
  | nil => rw [_step_nil w htasks]
  | cons task rest =>
      by_cases hc : task.id ∈ w.taskCancelSet
      · rw [_step_cons_cancelled w task rest htasks hc]
        exact ih rest.length (by rw [← hn, htasks]; simp)
          { w with
            tasks := rest,
            taskCancelSet := w.taskCancelSet.erase task.id,
            runningTasks := w.runningTasks.filter (fun p => p.1 ≠ task.id) }
          rfl
      · rw [_step_cons_live w task rest htasks hc]
        have hni : (handleFunctionTask (dispatchW w task rest) task).1.nextId
            = w.nextId :=
          handleFunctionTask_nextId (dispatchW w task rest) task
        have hts : (handleFunctionTask (dispatchW w task rest) task).1.tasks
            = rest ∨
            (handleFunctionTask (dispatchW w task rest) task).1.tasks = [] :=
          handleFunctionTask_tasks_cases (dispatchW w task rest) task
        by_cases hcont : (handleFunctionTask (dispatchW w task rest) task).2
        · rw [if_pos hcont]
          have hlt : (handleFunctionTask (dispatchW w task rest)
              task).1.tasks.length < n := by
            rcases hts with h' | h' <;> rw [h'] <;>
              (rw [← hn, htasks]; simp)
          rw [ih (handleFunctionTask (dispatchW w task rest)
            task).1.tasks.length hlt
            (handleFunctionTask (dispatchW w task rest) task).1 rfl]
          exact hni
        · rw [if_neg hcont]
          exact hni

/-- When no queued body performs a `clear`, `_step` preserves the session
id, and the resulting queue again has no clearing bodies. -/
theorem _step_noClear (w : World)
    (h : ∀ t ∈ w.tasks, BodyEff.clearAll ∉ t.effects) :
    (_step w).sessionId = w.sessionId ∧
      ∀ t ∈ (_step w).tasks, BodyEff.clearAll ∉ t.effects := by
  generalize hn : w.tasks.length = n
  induction n using Nat.strong_induction_on generalizing w with
  | _ n ih =>
  cases htasks : w.tasks with
  | nil =>
      rw [_step_nil w htasks]
      exact ⟨rfl, h⟩
  | cons task rest =>
      have hrest : ∀ t ∈ rest, BodyEff.clearAll ∉ t.effects := by
        intro t ht
        exact h t (by rw [htasks]; exact List.mem_cons_of_mem task ht)
      have htask : BodyEff.clearAll ∉ task.effects :=
        h task (by rw [htasks]; exact List.mem_cons_self task rest)
      by_cases hc : task.id ∈ w.taskCancelSet
      · rw [_step_cons_cancelled w task rest htasks hc]
        exact ih rest.length (by rw [← hn, htasks]; simp)
          { w with
            tasks := rest,
            taskCancelSet := w.taskCancelSet.erase task.id,
            runningTasks := w.runningTasks.filter (fun p => p.1 ≠ task.id) }
          hrest rfl
      · rw [_step_cons_live w task rest htasks hc]
        have hsess : (handleFunctionTask (dispatchW w task rest)
            task).1.sessionId = w.sessionId :=
          handleFunctionTask_session_noClear (dispatchW w task rest) task
            htask
        have hts : (handleFunctionTask (dispatchW w task rest) task).1.tasks
            = rest ∨
            (handleFunctionTask (dispatchW w task rest) task).1.tasks = [] :=
          handleFunctionTask_tasks_cases (dispatchW w task rest) task
        have hrest2 : ∀ t ∈ (handleFunctionTask (dispatchW w task rest)
            task).1.tasks, BodyEff.clearAll ∉ t.effects := by
          rcases hts with h' | h' <;> rw [h']
          · exact hrest
          · simp
        by_cases hcont : (handleFunctionTask (dispatchW w task rest) task).2
        · rw [if_pos hcont]
          have hlt : (handleFunctionTask (dispatchW w task rest)
              task).1.tasks.length < n := by
            rcases hts with h' | h' <;> rw [h'] <;>
              (rw [← hn, htasks]; simp)
          obtain ⟨hs2, ht2⟩ := ih
            (handleFunctionTask (dispatchW w task rest) task).1.tasks.length
            hlt (handleFunctionTask (dispatchW w task rest) task).1 hrest2
            rfl
          exact ⟨hs2.trans hsess, ht2⟩
        · rw [if_neg hcont]
          exact ⟨hsess, hrest2⟩

/-- When every queued body is effect-free, `_step` only ever removes
identifiers from the cancellation set. -/
theorem _step_cancel_subset (w : World)
    (h : ∀ t ∈ w.tasks, t.effects = []) :
    ∀ x, x ∈ (_step w).taskCancelSet → x ∈ w.taskCancelSet := by
  generalize hn : w.tasks.length = n
  induction n using Nat.strong_induction_on generalizing w with
  | _ n ih =>
  cases htasks : w.tasks with
  | nil =>
      rw [_step_nil w htasks]
      exact fun x hx => hx
  | cons task rest =>
      have hrest : ∀ t ∈ rest, t.effects = [] := by
        intro t ht
        exact h t (by rw [htasks]; exact List.mem_cons_of_mem task ht)
      have htask : task.effects = [] :=
        h task (by rw [htasks]; exact List.mem_cons_self task rest)
      by_cases hc : task.id ∈ w.taskCancelSet
      · rw [_step_cons_cancelled w task rest htasks hc]
        intro x hx
        have := ih rest.length (by rw [← hn, htasks]; simp)
          { w with
            tasks := rest,
            taskCancelSet := w.taskCancelSet.erase task.id,
            runningTasks := w.runningTasks.filter (fun p => p.1 ≠ task.id) }
          hrest rfl x hx
        exact List.mem_of_mem_erase this
      · rw [_step_cons_live w task rest htasks hc]
        obtain ⟨hts, hcs, _⟩ :=
          handleFunctionTask_pure (dispatchW w task rest) task htask
        have hts' : (handleFunctionTask (dispatchW w task rest) task).1.tasks
            = rest := hts
        have hcs' : (handleFunctionTask (dispatchW w task rest)
            task).1.taskCancelSet = w.taskCancelSet := hcs
        by_cases hcont : (handleFunctionTask (dispatchW w task rest) task).2
        · rw [if_pos hcont]
          intro x hx
          have := ih (handleFunctionTask (dispatchW w task rest)
              task).1.tasks.length
            (by rw [hts']; rw [← hn, htasks]; simp)
            (handleFunctionTask (dispatchW w task rest) task).1
            (by rw [hts']; exact hrest) rfl x hx
          rw [hcs'] at this
          exact this
        · rw [if_neg hcont]
          intro x hx
          rw [hcs'] at hx
          exact hx

/-- A settlement whose captured session differs from the live one is
discarded outright: no state change, no events. -/
theorem settleReaction_stale (w : World) (r : Reaction) (oc : Settlement)
    (hs : r.sessionId ≠ w.sessionId) :
    settleReaction w r oc = w := by
  unfold settleReaction
  rw [if_pos (fun h => hs h.symm)]

/-- A current-session settlement of a cancelled task clears the mark and
invokes no callback; in wait mode the loop then advances. -/
theorem settleReaction_cancelled (w : World) (r : Reaction) (oc : Settlement)
    (hs : r.sessionId = w.sessionId) (hcn : r.task.id ∈ w.taskCancelSet) :
    settleReaction w r oc =
      (if !r.task.donotWaitAsync then
        _step { w with
          taskCancelSet := w.taskCancelSet.erase r.task.id,
          runningTasks := (w.runningTasks.filter
            (fun p => p.1 ≠ r.task.id)).filter (fun p => p.1 ≠ r.task.id) }
       else { w with
          taskCancelSet := w.taskCancelSet.erase r.task.id,
          runningTasks := (w.runningTasks.filter
            (fun p => p.1 ≠ r.task.id)).filter
              (fun p => p.1 ≠ r.task.id) }) := by
  unfold settleReaction
  rw [if_neg (by simp [hs])]
  simp [checkAndClearCanceled, hcn]

/-- A current-session fulfilment of a non-cancelled task delivers the value
to the completion callback when present; in wait mode the loop then
advances. -/
theorem settleReaction_fulfilled_live (w : World) (r : Reaction)
    (hs : r.sessionId = w.sessionId) (hcn : r.task.id ∉ w.taskCancelSet) :
    settleReaction w r Settlement.fulfilled =
      (if !r.task.donotWaitAsync then
        _step { w with
          runningTasks := w.runningTasks.filter (fun p => p.1 ≠ r.task.id),
          trace := w.trace ++ Event.valueDelivered r.task.id ::
            (if r.task.hasResolve then [Event.resolveCb r.task.id] else []) }
       else { w with
          runningTasks := w.runningTasks.filter (fun p => p.1 ≠ r.task.id),
          trace := w.trace ++ Event.valueDelivered r.task.id ::
            (if r.task.hasResolve then [Event.resolveCb r.task.id]
             else []) }) := by
  unfold settleReaction
  rw [if_neg (by simp [hs])]
  by_cases hr : r.task.hasResolve <;>
    simp [checkAndClearCanceled, hcn, hr]

/-- A current-session rejection of a non-cancelled task invokes exactly one
of: the failure callback, else the generic-error callback, else the
asynchronous diagnostic; in wait mode the loop then advances. -/
theorem settleReaction_rejected_live (w : World) (r : Reaction)
    (hs : r.sessionId = w.sessionId) (hcn : r.task.id ∉ w.taskCancelSet) :
    settleReaction w r Settlement.rejected =
      (if !r.task.donotWaitAsync then
        _step { w with
          runningTasks := w.runningTasks.filter (fun p => p.1 ≠ r.task.id),
          trace := w.trace ++ [Event.errorDelivered r.task.id,
            (if r.task.hasReject then Event.rejectCb r.task.id
             else if r.task.hasCatch then Event.catchCb r.task.id
             else Event.diagAsync r.task.id r.task.taskDesc)] }
       else { w with
          runningTasks := w.runningTasks.filter (fun p => p.1 ≠ r.task.id),
          trace := w.trace ++ [Event.errorDelivered r.task.id,
            (if r.task.hasReject then Event.rejectCb r.task.id
             else if r.task.hasCatch then Event.catchCb r.task.id
             else Event.diagAsync r.task.id r.task.taskDesc)] }) := by
  unfold settleReaction
  rw [if_neg (by simp [hs])]
  by_cases hr : r.task.hasReject
  · simp [checkAndClearCanceled, hcn, hr]
  · by_cases hct : r.task.hasCatch <;>
      simp [checkAndClearCanceled, hcn, hr, hct]

/-- `addTask` on a queue with no clearing bodies: the counter advances by
one, the session is unchanged, the queue keeps the no-clear property, and
the returned id is `(_nextId << _sessionId) >>> 0`. -/
theorem addTask_noClear (w : World) (t : ITask)
    (hw : ∀ u ∈ w.tasks, BodyEff.clearAll ∉ u.effects)
    (ht : BodyEff.clearAll ∉ t.effects) :
    (addTask w t).1.nextId = w.nextId + 1 ∧
      (addTask w t).1.sessionId = w.sessionId ∧
      (∀ u ∈ (addTask w t).1.tasks, BodyEff.clearAll ∉ u.effects) ∧
      (addTask w t).2 =
        (w.nextId % 2 ^ 32) * 2 ^ (w.sessionId % 32) % 2 ^ 32 := by
  have hall : ∀ (i : Nat),
      ∀ u ∈ w.tasks ++ [(⟨t, i⟩ : TaskInfo)], BodyEff.clearAll ∉ u.effects := by
    intro i u hu
    rcases List.mem_append.mp hu with hu | hu
    · exact hw u hu
    · have : u = (⟨t, i⟩ : TaskInfo) := by simpa using hu
      rw [this]
      exact ht
  by_cases hr : w.running
  · have haddeq : addTask w t =
        ({ w with
            nextId := w.nextId + 1,
            tasks := w.tasks ++ [⟨t, (w.nextId % 2 ^ 32) *
              2 ^ (w.sessionId % 32) % 2 ^ 32⟩] },
         (w.nextId % 2 ^ 32) * 2 ^ (w.sessionId % 32) % 2 ^ 32) := by
      simp only [addTask]
      rw [if_pos hr]
    rw [haddeq]
    exact ⟨rfl, rfl, hall _, rfl⟩
  · have haddeq : addTask w t =
        (_step
          { w with
            nextId := w.nextId + 1,
            running := true,
            tasks := w.tasks ++ [⟨t, (w.nextId % 2 ^ 32) *
              2 ^ (w.sessionId % 32) % 2 ^ 32⟩] },
         (w.nextId % 2 ^ 32) * 2 ^ (w.sessionId % 32) % 2 ^ 32) := by
      simp only [addTask]
      rw [if_neg hr]
    rw [haddeq]
    refine ⟨(_step_nextId _).trans rfl, ?_, ?_, rfl⟩
    · exact (_step_noClear _ (hall _)).1.trans rfl
    · exact (_step_noClear _ (hall _)).2

/-! ### Helpers for the wait-mode ordering invariant (claim C1) -/

theorem waitPure_iff (t : ITask) :
    waitPure t = true ↔ t.donotWaitAsync = false ∧ t.effects = [] := by
  simp [waitPure, List.isEmpty_iff]

theorem mkInfos_append (l : List ITask) (t : ITask) :
    ∀ n, mkInfos (l ++ [t]) n =
      mkInfos l n ++ [⟨t, n + l.length⟩] := by
  induction l with
  | nil => intro n; simp [mkInfos]
  | cons u l ih =>
      intro n
      simp only [List.cons_append, mkInfos, ih (n + 1), List.length_cons]
      have harith : n + 1 + l.length = n + (l.length + 1) := by omega
      rw [show l.append [t] = l ++ [t] from rfl, ih (n + 1), harith]

theorem sortedIds_append_const (tr chunk : List Event) (m : Nat)
    (h1 : sortedIds tr) (h2 : idsLe tr m)
    (h3 : ∀ e ∈ chunk, eventId e = m) :
    sortedIds (tr ++ chunk) := by
  unfold sortedIds at h1 ⊢
  rw [List.pairwise_append]
  refine ⟨h1, ?_, ?_⟩
  · have key : ∀ (c : List Event), (∀ e ∈ c, eventId e = m) →
        c.Pairwise (fun a b => eventId a ≤ eventId b) := by
      intro c
      induction c with
      | nil => intro _; exact List.Pairwise.nil
      | cons a c ihc =>
          intro hm
          refine List.Pairwise.cons ?_
            (ihc (fun e he => hm e (List.mem_cons_of_mem a he)))
          intro b hb
          rw [hm a (List.mem_cons_self a c),
            hm b (List.mem_cons_of_mem a hb)]
    exact key chunk h3
  · intro a ha b hb
    rw [h3 b hb]
    exact h2 a ha

theorem idsLe_append (tr chunk : List Event) (m m' : Nat)
    (h1 : idsLe tr m) (hmm : m ≤ m')
    (h3 : ∀ e ∈ chunk, eventId e = m') :
    idsLe (tr ++ chunk) m' := by
  intro e he
  rcases List.mem_append.mp he with he | he
  · exact le_trans (h1 e he) hmm
  · exact le_of_eq (h3 e he)

theorem deliveredUpTo_append (tr chunk : List Event) (d : Nat)
    (h1 : deliveredUpTo tr d)
    (h2 : Event.valueDelivered (d + 1) ∈ chunk ∨
      Event.errorDelivered (d + 1) ∈ chunk) :
    deliveredUpTo (tr ++ chunk) (d + 1) := by
  intro k hk1 hk2
  by_cases hk3 : k ≤ d
  · rcases h1 k hk1 hk3 with h | h
    · exact Or.inl (List.mem_append_left chunk h)
    · exact Or.inr (List.mem_append_left chunk h)
  · have : k = d + 1 := by omega
    subst this
    rcases h2 with h | h
    · exact Or.inl (List.mem_append_right tr h)
    · exact Or.inr (List.mem_append_right tr h)

theorem deliveredUpTo_mono (tr tr' : List Event) (d : Nat)
    (h1 : deliveredUpTo tr d) (h : ∀ e ∈ tr, e ∈ tr') :
    deliveredUpTo tr' d := by
  intro k hk1 hk2
  rcases h1 k hk1 hk2 with h' | h'
  · exact Or.inl (h _ h')
  · exact Or.inr (h _ h')

/-- Core loop lemma for wait-mode-only histories: starting `_step` on a
live scheduler whose queue holds the not-yet-dispatched suffix of the
submissions (ids `m+1, m+2, ...`), with a well-formed trace for the first
`m` tasks, re-establishes the invariant. -/
theorem C1_ready_run (ts : List ITask) :
    ∀ (specs : List ITask) (m : Nat) (tr : List Event),
      (∀ t ∈ specs, waitPure t = true) →
      specs.drop m = ts →
      m + ts.length = specs.length →
      sortedIds tr → idsLe tr m → deliveredUpTo tr m →
      C1Inv specs (_step (readyW specs.length (mkInfos ts (m + 1)) tr)) := by
  induction ts with
  | nil =>
      intro specs m tr hpure hdrop hlen hsort hle hdel
      have hm : m = specs.length := by simpa using hlen
      have hstep : _step (readyW specs.length (mkInfos [] (m + 1)) tr) =
          idleW specs.length tr := by
        rw [_step_nil _ rfl]
        rfl
      rw [hstep]
      refine ⟨hpure, Or.inl ⟨rfl, hsort, ?_, ?_⟩⟩
      · rw [← hm]
        exact hle
      · rw [← hm]
        exact hdel
  | cons t ts ih =>
      intro specs m tr hpure hdrop hlen hsort hle hdel
      have htmem : t ∈ specs := by
        have : t ∈ specs.drop m := by
          rw [hdrop]
          exact List.mem_cons_self t ts
        exact List.drop_subset m specs this
      have ht := hpure t htmem
      obtain ⟨htw, hte⟩ := (waitPure_iff t).mp ht
      have hmlt : m < specs.length := by
        rw [← hlen]
        simp
      have hdrop' : specs.drop (m + 1) = ts := by
        rw [← List.tail_drop, hdrop]
        rfl
      have hgetm : specs[m]? = some t := by
        have h0 : (specs.drop m)[0]? = some t := by rw [hdrop]; simp
        rw [List.getElem?_drop] at h0
        simpa using h0
      have hlen' : m + 1 + ts.length = specs.length := by
        rw [← hlen]
        simp [List.length_cons]
        omega
      have hmk : mkInfos (t :: ts) (m + 1) =
          (⟨t, m + 1⟩ : TaskInfo) :: mkInfos ts (m + 2) := rfl
      rw [hmk]
      have hlive := _step_cons_live
        (readyW specs.length ((⟨t, m + 1⟩ : TaskInfo) ::
          mkInfos ts (m + 2)) tr)
        ⟨t, m + 1⟩ (mkInfos ts (m + 2)) rfl (List.not_mem_nil _)
      rw [hlive]
      cases htres : t.result with
      | value =>
          have hstep : handleFunctionTask
              (dispatchW (readyW specs.length ((⟨t, m + 1⟩ : TaskInfo) ::
                mkInfos ts (m + 2)) tr) ⟨t, m + 1⟩ (mkInfos ts (m + 2)))
              ⟨t, m + 1⟩ =
              (readyW specs.length (mkInfos ts (m + 2))
                (tr ++ Event.bodyRun (m + 1) ::
                  Event.valueDelivered (m + 1) ::
                  (if t.hasResolve then [Event.resolveCb (m + 1)]
                   else [])), true) := by
            by_cases hr : t.hasResolve <;>
              simp [handleFunctionTask, dispatchW, readyW, hte, htres, hr,
                runEffects, mapSet]
          rw [hstep]
          have hchunk : ∀ e ∈ Event.bodyRun (m + 1) ::
              Event.valueDelivered (m + 1) ::
              (if t.hasResolve then [Event.resolveCb (m + 1)] else []),
              eventId e = m + 1 := by
            intro e he
            by_cases hr : t.hasResolve
            · simp [hr] at he
              rcases he with he | he | he <;> simp [he, eventId]
            · simp [hr] at he
              rcases he with he | he <;> simp [he, eventId]
          have hih := ih specs (m + 1)
            (tr ++ Event.bodyRun (m + 1) :: Event.valueDelivered (m + 1) ::
              (if t.hasResolve then [Event.resolveCb (m + 1)] else []))
            hpure hdrop' (by omega)
            (sortedIds_append_const tr _ (m + 1) hsort
              (fun e he => le_trans (hle e he) (by omega)) hchunk)
            (idsLe_append tr _ m (m + 1) hle (by omega) hchunk)
            (deliveredUpTo_append tr _ m hdel
              (Or.inl (by by_cases hr : t.hasResolve <;> simp [hr])))
          exact hih
      | thrown =>
          have hstep : handleFunctionTask
              (dispatchW (readyW specs.length ((⟨t, m + 1⟩ : TaskInfo) ::
                mkInfos ts (m + 2)) tr) ⟨t, m + 1⟩ (mkInfos ts (m + 2)))
              ⟨t, m + 1⟩ =
              (readyW specs.length (mkInfos ts (m + 2))
                (tr ++ Event.bodyRun (m + 1) ::
                  Event.errorDelivered (m + 1) ::
                  (if t.hasCatch then [Event.catchCb (m + 1)]
                   else [Event.diagSync (m + 1) t.taskDesc])), true) := by
            by_cases hct : t.hasCatch <;>
              simp [handleFunctionTask, dispatchW, readyW, hte, htres, hct,
                runEffects, mapSet]
          rw [hstep]
          have hchunk : ∀ e ∈ Event.bodyRun (m + 1) ::
              Event.errorDelivered (m + 1) ::
              (if t.hasCatch then [Event.catchCb (m + 1)]
               else [Event.diagSync (m + 1) t.taskDesc]),
              eventId e = m + 1 := by
            intro e he
            by_cases hct : t.hasCatch
            · simp [hct] at he
              rcases he with he | he | he <;> simp [he, eventId]
            · simp [hct] at he
              rcases he with he | he | he <;> simp [he, eventId]
          have hih := ih specs (m + 1)
            (tr ++ Event.bodyRun (m + 1) :: Event.errorDelivered (m + 1) ::
              (if t.hasCatch then [Event.catchCb (m + 1)]
               else [Event.diagSync (m + 1) t.taskDesc]))
            hpure hdrop' (by omega)
            (sortedIds_append_const tr _ (m + 1) hsort
              (fun e he => le_trans (hle e he) (by omega)) hchunk)
            (idsLe_append tr _ m (m + 1) hle (by omega) hchunk)
            (deliveredUpTo_append tr _ m hdel
              (Or.inr (by by_cases hct : t.hasCatch <;> simp [hct])))
          exact hih
      | promise =>
          have hstep : handleFunctionTask
              (dispatchW (readyW specs.length ((⟨t, m + 1⟩ : TaskInfo) ::
                mkInfos ts (m + 2)) tr) ⟨t, m + 1⟩ (mkInfos ts (m + 2)))
              ⟨t, m + 1⟩ =
              (waitW specs.length ⟨t, m + 1⟩ (mkInfos ts (m + 2))
                (tr ++ [Event.bodyRun (m + 1)]), false) := by
            simp [handleFunctionTask, handleAsyncTask, dispatchW, readyW,
              waitW, hte, htres, htw, runEffects, mapSet]
          rw [hstep]
          have hchunk : ∀ e ∈ [Event.bodyRun (m + 1)],
              eventId e = m + 1 := by
            intro e he
            simp at he
            simp [he, eventId]
          refine ⟨hpure, Or.inr ⟨m, t, hmlt, hgetm, htres, ?_, ?_, ?_, ?_⟩⟩
          · show waitW specs.length ⟨t, m + 1⟩ (mkInfos ts (m + 2))
              (tr ++ [Event.bodyRun (m + 1)]) = _
            rw [hdrop']
            rfl
          · exact sortedIds_append_const tr _ (m + 1) hsort
              (fun e he => le_trans (hle e he) (by omega)) hchunk
          · exact idsLe_append tr _ m (m + 1) hle (by omega) hchunk
          · exact deliveredUpTo_mono tr _ m hdel
              (fun e he => List.mem_append_left _ he)

theorem addTask_running (w : World) (t : ITask) (hr : w.running = true) :
    addTask w t = ({ w with
      nextId := w.nextId + 1,
      tasks := w.tasks ++ [⟨t, (w.nextId % 2 ^ 32) *
        2 ^ (w.sessionId % 32) % 2 ^ 32⟩] },
      (w.nextId % 2 ^ 32) * 2 ^ (w.sessionId % 32) % 2 ^ 32) := by
  simp only [addTask]
  rw [if_pos hr]

theorem addTask_idle (w : World) (t : ITask) (hr : w.running = false) :
    addTask w t = (_step { w with
      nextId := w.nextId + 1, running := true,
      tasks := w.tasks ++ [⟨t, (w.nextId % 2 ^ 32) *
        2 ^ (w.sessionId % 32) % 2 ^ 32⟩] },
      (w.nextId % 2 ^ 32) * 2 ^ (w.sessionId % 32) % 2 ^ 32) := by
  simp only [addTask]
  rw [if_neg (by simp [hr])]

/-- One ordered action (wait-mode submission or settlement) preserves the
wait-mode invariant, extending the submission list on `add`. -/
theorem C1Inv_step (specs : List ITask) (w : World) (a : Action)
    (hInv : C1Inv specs w) (ha : orderedAct a = true)
    (hlen : specs.length + 1 < 2 ^ 32) :
    C1Inv (match a with
      | .add t => specs ++ [t]
      | _ => specs) (exec w a) := by
  obtain ⟨hpure, hphase⟩ := hInv
  have hmod : (specs.length + 1) % 2 ^ 32 = specs.length + 1 :=
    Nat.mod_eq_of_lt hlen
  cases a with
  | cancel id => simp [orderedAct] at ha
  | clearAll => simp [orderedAct] at ha
  | add t =>
      show C1Inv (specs ++ [t]) (exec w (Action.add t))
      have hwp : waitPure t = true := by simpa [orderedAct] using ha
      have hpure' : ∀ u ∈ specs ++ [t], waitPure u = true := by
        intro u hu
        rcases List.mem_append.mp hu with hu | hu
        · exact hpure u hu
        · have : u = t := by simpa using hu
          rw [this]
          exact hwp
      rcases hphase with ⟨hw, hsort, hle, hdel⟩ |
        ⟨d, td, hd, hget, htres, hw, hsort, hle, hdel⟩
      · -- idle: the submission kicks the loop at once
        set tr := w.trace with htrdef
        have hexec : exec w (Action.add t) =
            _step (readyW (specs ++ [t]).length
              (mkInfos [t] (specs.length + 1)) tr) := by
          show (addTask w t).1 = _
          rw [hw, addTask_idle _ t rfl]
          have hrec : ({ (idleW specs.length tr) with
              nextId := (idleW specs.length tr).nextId + 1, running := true,
              tasks := (idleW specs.length tr).tasks ++
                [⟨t, ((idleW specs.length tr).nextId % 2 ^ 32) *
                  2 ^ ((idleW specs.length tr).sessionId % 32) % 2 ^ 32⟩] }
              : World) =
              readyW (specs ++ [t]).length
                (mkInfos [t] (specs.length + 1)) tr := by
            simp [idleW, readyW, mkInfos, hmod] <;> omega
          rw [hrec]
        rw [hexec]
        exact C1_ready_run [t] (specs ++ [t]) specs.length tr hpure'
          (List.drop_left specs [t]) (by simp) hsort
          (by simpa using hle) (by simpa using hdel)
      · -- waiting: the submission only queues up behind the in-flight task
        set tr := w.trace with htrdef
        have hdle : d + 1 ≤ specs.length := hd
        have htasks : mkInfos (specs.drop (d + 1)) (d + 2) ++
            [(⟨t, specs.length + 1⟩ : TaskInfo)] =
            mkInfos ((specs ++ [t]).drop (d + 1)) (d + 2) := by
          rw [List.drop_append_of_le_length hdle, mkInfos_append,
            List.length_drop]
          have harith : d + 2 + (specs.length - (d + 1)) =
              specs.length + 1 := by omega
          rw [harith]
        have hexec : exec w (Action.add t) =
            waitW (specs ++ [t]).length ⟨td, d + 1⟩
              (mkInfos ((specs ++ [t]).drop (d + 1)) (d + 2)) tr := by
          show (addTask w t).1 = _
          rw [hw, addTask_running _ t rfl]
          show ({ (waitW specs.length ⟨td, d + 1⟩
              (mkInfos (specs.drop (d + 1)) (d + 2)) tr) with
            nextId := (waitW specs.length ⟨td, d + 1⟩
              (mkInfos (specs.drop (d + 1)) (d + 2)) tr).nextId + 1,
            tasks := (waitW specs.length ⟨td, d + 1⟩
              (mkInfos (specs.drop (d + 1)) (d + 2)) tr).tasks ++
              [⟨t, ((waitW specs.length ⟨td, d + 1⟩
                (mkInfos (specs.drop (d + 1)) (d + 2)) tr).nextId % 2 ^ 32) *
                2 ^ ((waitW specs.length ⟨td, d + 1⟩
                  (mkInfos (specs.drop (d + 1)) (d + 2))
                  tr).sessionId % 32) % 2 ^ 32⟩] } : World) = _
          simp only [waitW, List.length_append, List.length_cons,
            List.length_nil]
          rw [show ((specs.length + 1) % 2 ^ 32) *
            2 ^ (0 % 32) % 2 ^ 32 = specs.length + 1 by
              rw [hmod]; simp [hmod] <;> omega]
          rw [htasks]
        rw [hexec]
        refine ⟨hpure', Or.inr ⟨d, td, by simp; omega, ?_, htres, ?_,
          hsort, hle, hdel⟩⟩
        · show (specs ++ [t])[d]? = some td
          rw [List.getElem?_append_left hd]
          exact hget
        · rfl
  | settle k oc =>
      show C1Inv specs (exec w (Action.settle k oc))
      rcases hphase with ⟨hw, hsort, hle, hdel⟩ |
        ⟨d, td, hd, hget, htres, hw, hsort, hle, hdel⟩
      · -- idle: no pending settlement exists, the event is a no-op
        set tr := w.trace with htrdef
        have hexec : exec w (Action.settle k oc) = w := by
          rw [hw]
          rfl
        rw [hexec]
        exact ⟨hpure, Or.inl ⟨hw, hsort, hle, hdel⟩⟩
      · -- waiting: only k = 0 matches the single in-flight reaction
        set tr := w.trace with htrdef
        have htdmem : td ∈ specs := by
          have h0 : specs[d]? = some td := hget
          exact List.getElem?_mem h0
        obtain ⟨htdw, htde⟩ := (waitPure_iff td).mp (hpure td htdmem)
        cases k with
        | succ k' =>
            have hexec : exec w (Action.settle (k' + 1) oc) = w := by
              rw [hw]
              rfl
            rw [hexec]
            exact ⟨hpure, Or.inr ⟨d, td, hd, hget, htres, hw, hsort, hle,
              hdel⟩⟩
        | zero =>
            have hlendrop : d + 1 + (specs.drop (d + 1)).length =
                specs.length := by
              rw [List.length_drop]
              omega
            cases oc with
            | fulfilled =>
                have hchunk : ∀ e ∈ Event.valueDelivered (d + 1) ::
                    (if (⟨td, d + 1⟩ : TaskInfo).hasResolve then
                      [Event.resolveCb (d + 1)] else []),
                    eventId e = d + 1 := by
                  intro e he
                  rcases List.mem_cons.mp he with he | he
                  · rw [he]; rfl
                  · by_cases hr : td.hasResolve
                    · rw [if_pos hr] at he
                      have he' : e = Event.resolveCb (d + 1) := by
                        simpa using he
                      rw [he']; rfl
                    · rw [if_neg hr] at he
                      exact absurd he (List.not_mem_nil e)
                have hexec : exec w (Action.settle 0 Settlement.fulfilled) =
                    _step (readyW specs.length
                      (mkInfos (specs.drop (d + 1)) (d + 2))
                      (tr ++ Event.valueDelivered (d + 1) ::
                        (if (⟨td, d + 1⟩ : TaskInfo).hasResolve then
                          [Event.resolveCb (d + 1)] else []))) := by
                  rw [hw]
                  show settleReaction
                    { (waitW specs.length ⟨td, d + 1⟩
                        (mkInfos (specs.drop (d + 1)) (d + 2)) tr) with
                      pending := [] } ⟨⟨td, d + 1⟩, 0⟩
                    Settlement.fulfilled = _
                  rw [settleReaction_fulfilled_live _ ⟨⟨td, d + 1⟩, 0⟩ rfl
                    (List.not_mem_nil _)]
                  rw [if_pos (by simp [htdw])]
                  have hrec : ({ ({ (waitW specs.length ⟨td, d + 1⟩
                      (mkInfos (specs.drop (d + 1)) (d + 2)) tr) with
                      pending := ([] : List Reaction) }) with
                    runningTasks := ({ (waitW specs.length ⟨td, d + 1⟩
                      (mkInfos (specs.drop (d + 1)) (d + 2)) tr) with
                      pending := ([] : List Reaction) }).runningTasks.filter
                        (fun p => p.1 ≠ (⟨td, d + 1⟩ : TaskInfo).id),
                    trace := ({ (waitW specs.length ⟨td, d + 1⟩
                      (mkInfos (specs.drop (d + 1)) (d + 2)) tr) with
                      pending := ([] : List Reaction) }).trace ++
                        Event.valueDelivered (⟨td, d + 1⟩ : TaskInfo).id ::
                        (if (⟨td, d + 1⟩ : TaskInfo).hasResolve then
                          [Event.resolveCb (⟨td, d + 1⟩ : TaskInfo).id]
                         else []) } : World) =
                      readyW specs.length
                        (mkInfos (specs.drop (d + 1)) (d + 2))
                        (tr ++ Event.valueDelivered (d + 1) ::
                          (if (⟨td, d + 1⟩ : TaskInfo).hasResolve then
                            [Event.resolveCb (d + 1)] else [])) := by
                    simp [waitW, readyW]
                  rw [hrec]
                rw [hexec]
                exact C1_ready_run (specs.drop (d + 1)) specs (d + 1)
                  (tr ++ Event.valueDelivered (d + 1) ::
                    (if (⟨td, d + 1⟩ : TaskInfo).hasResolve then
                      [Event.resolveCb (d + 1)] else []))
                  hpure rfl hlendrop
                  (sortedIds_append_const tr _ (d + 1) hsort hle hchunk)
                  (idsLe_append tr _ (d + 1) (d + 1) hle (le_refl _) hchunk)
                  (deliveredUpTo_append tr _ d hdel
                    (Or.inl (List.mem_cons_self _ _)))
            | rejected =>
                have hchunk : ∀ e ∈ [Event.errorDelivered (d + 1),
                    (if (⟨td, d + 1⟩ : TaskInfo).hasReject then
                      Event.rejectCb (d + 1)
                     else if (⟨td, d + 1⟩ : TaskInfo).hasCatch then
                      Event.catchCb (d + 1)
                     else Event.diagAsync (d + 1) td.taskDesc)],
                    eventId e = d + 1 := by
                  intro e he
                  rcases List.mem_cons.mp he with he | he
                  · rw [he]; rfl
                  · have he' : e =
                        (if (⟨td, d + 1⟩ : TaskInfo).hasReject then
                          Event.rejectCb (d + 1)
                         else if (⟨td, d + 1⟩ : TaskInfo).hasCatch then
                          Event.catchCb (d + 1)
                         else Event.diagAsync (d + 1) td.taskDesc) := by
                      simpa using he
                    rw [he']
                    by_cases hr : td.hasReject
                    · rw [if_pos hr]; rfl
                    · rw [if_neg hr]
                      by_cases hct : td.hasCatch
                      · rw [if_pos hct]; rfl
                      · rw [if_neg hct]; rfl
                have hexec : exec w (Action.settle 0 Settlement.rejected) =
                    _step (readyW specs.length
                      (mkInfos (specs.drop (d + 1)) (d + 2))
                      (tr ++ [Event.errorDelivered (d + 1),
                        (if (⟨td, d + 1⟩ : TaskInfo).hasReject then
                          Event.rejectCb (d + 1)
                         else if (⟨td, d + 1⟩ : TaskInfo).hasCatch then
                          Event.catchCb (d + 1)
                         else Event.diagAsync (d + 1) td.taskDesc)])) := by
                  rw [hw]
                  show settleReaction
                    { (waitW specs.length ⟨td, d + 1⟩
                        (mkInfos (specs.drop (d + 1)) (d + 2)) tr) with
                      pending := [] } ⟨⟨td, d + 1⟩, 0⟩
                    Settlement.rejected = _
                  rw [settleReaction_rejected_live _ ⟨⟨td, d + 1⟩, 0⟩ rfl
                    (List.not_mem_nil _)]
                  rw [if_pos (by simp [htdw])]
                  have hrec : ({ ({ (waitW specs.length ⟨td, d + 1⟩
                      (mkInfos (specs.drop (d + 1)) (d + 2)) tr) with
                      pending := ([] : List Reaction) }) with
                    runningTasks := ({ (waitW specs.length ⟨td, d + 1⟩
                      (mkInfos (specs.drop (d + 1)) (d + 2)) tr) with
                      pending := ([] : List Reaction) }).runningTasks.filter
                        (fun p => p.1 ≠ (⟨td, d + 1⟩ : TaskInfo).id),
                    trace := ({ (waitW specs.length ⟨td, d + 1⟩
                      (mkInfos (specs.drop (d + 1)) (d + 2)) tr) with
                      pending := ([] : List Reaction) }).trace ++
                        [Event.errorDelivered (⟨td, d + 1⟩ : TaskInfo).id,
                          (if (⟨td, d + 1⟩ : TaskInfo).hasReject then
                            Event.rejectCb (⟨td, d + 1⟩ : TaskInfo).id
                           else if (⟨td, d + 1⟩ : TaskInfo).hasCatch then
                            Event.catchCb (⟨td, d + 1⟩ : TaskInfo).id
                           else Event.diagAsync
                            (⟨td, d + 1⟩ : TaskInfo).id
                            (⟨td, d + 1⟩ : TaskInfo).taskDesc)] } : World) =
                      readyW specs.length
                        (mkInfos (specs.drop (d + 1)) (d + 2))
                        (tr ++ [Event.errorDelivered (d + 1),
                          (if (⟨td, d + 1⟩ : TaskInfo).hasReject then
                            Event.rejectCb (d + 1)
                           else if (⟨td, d + 1⟩ : TaskInfo).hasCatch then
                            Event.catchCb (d + 1)
                           else Event.diagAsync (d + 1) td.taskDesc)]) := by
                    simp [waitW, readyW]
                  rw [hrec]
                rw [hexec]
                exact C1_ready_run (specs.drop (d + 1)) specs (d + 1)
                  (tr ++ [Event.errorDelivered (d + 1),
                    (if (⟨td, d + 1⟩ : TaskInfo).hasReject then
                      Event.rejectCb (d + 1)
                     else if (⟨td, d + 1⟩ : TaskInfo).hasCatch then
                      Event.catchCb (d + 1)
                     else Event.diagAsync (d + 1) td.taskDesc)])
                  hpure rfl hlendrop
                  (sortedIds_append_const tr _ (d + 1) hsort hle hchunk)
                  (idsLe_append tr _ (d + 1) (d + 1) hle (le_refl _) hchunk)
                  (deliveredUpTo_append tr _ d hdel
                    (Or.inr (by simp)))

/-- A fresh manager satisfies the wait-mode invariant with no
submissions. -/
theorem C1Inv_init : C1Inv [] create := by
  refine ⟨by simp, Or.inl ⟨rfl, List.Pairwise.nil, ?_, ?_⟩⟩
  · intro e he
    exact absurd he (List.not_mem_nil e)
  · intro k hk1 hk2
    simp at hk2
    exact absurd hk1 (by omega)

/-- Running any wait-mode-only action sequence maintains the invariant. -/
theorem C1Inv_run (acts : List Action) :
    ∀ (specs : List ITask) (w : World),
      C1Inv specs w → (∀ a ∈ acts, orderedAct a = true) →
      specs.length + acts.length + 1 ≤ 2 ^ 32 →
      ∃ specs', C1Inv specs' (acts.foldl exec w) := by
  induction acts with
  | nil =>
      intro specs w hInv _ _
      exact ⟨specs, hInv⟩
  | cons a acts ih =>
      intro specs w hInv hacts hbound
      have ha : orderedAct a = true := hacts a (List.mem_cons_self a acts)
      have hbound' : specs.length + acts.length + 2 ≤ 2 ^ 32 := by
        have h1 : (a :: acts).length = acts.length + 1 := rfl
        rw [h1] at hbound
        omega
      have hstep := C1Inv_step specs w a hInv ha (by omega)
      have hacts' : ∀ x ∈ acts, orderedAct x = true :=
        fun x hx => hacts x (List.mem_cons_of_mem a hx)
      cases a with
      | add t =>
          exact ih (specs ++ [t]) (exec w (Action.add t)) hstep hacts'
            (by simp; omega)
      | cancel id => simp [orderedAct] at ha
      | clearAll => simp [orderedAct] at ha
      | settle k oc =>
          exact ih specs (exec w (Action.settle k oc)) hstep hacts'
            (by omega)

/-! ### Claim theorems -/

/-- C7: `isTaskAlive` returns false when the identifier is marked in the
cancellation set; otherwise it returns true exactly when the identifier is
currently in flight (in the running map) or still pending in the queue, and
false in every other case (never submitted, already completed, or
unknown). -/
theorem C7_isTaskAlive (w : World) (taskId : Nat) :
    (taskId ∈ w.taskCancelSet → isTaskAlive w taskId = false) ∧
    (taskId ∉ w.taskCancelSet →
      (isTaskAlive w taskId = true ↔
        ((∃ p ∈ w.runningTasks, p.1 = taskId) ∨
          ∃ t ∈ w.tasks, t.id = taskId))) := by
  constructor
  · intro h
    simp [isTaskAlive, h]
  · intro h
    unfold isTaskAlive
    rw [if_neg h]
    by_cases h2 : w.runningTasks.any (fun p => p.1 = taskId)
    · rw [if_pos h2]
      simp only [true_iff]
      exact Or.inl (by simpa using h2)
    · rw [if_neg h2]
      constructor
      · intro h3
        exact Or.inr (by simpa using h3)
      · intro h3
        rcases h3 with h3 | h3
        · exact absurd (by simpa using h3) h2
        · simpa using h3

/-- Witness for C7: a cancelled in-flight id reports dead; an in-flight id
reports alive. -/
theorem C7_isTaskAlive_witness :
    isTaskAlive (run [Action.add (promiseTask "a"), Action.cancel 1]) 1
        = false ∧
      (isTaskAlive (run [Action.add (promiseTask "a")]) 1 = true ↔
        ((∃ p ∈ (run [Action.add (promiseTask "a")]).runningTasks,
            p.1 = 1) ∨
          ∃ t ∈ (run [Action.add (promiseTask "a")]).tasks, t.id = 1)) :=
  ⟨(C7_isTaskAlive (run [Action.add (promiseTask "a"), Action.cancel 1])
      1).1 (by decide),
   (C7_isTaskAlive (run [Action.add (promiseTask "a")]) 1).2 (by decide)⟩

/-- C3: cancellation takes effect at processing time.  (a) A queue entry
whose id is marked is discarded silently when popped: its callable never
runs, no callback fires, the mark is consumed and the loop retries at once
on the cleaned state.  (b) An entry already dispatched and awaiting its
deferred outcome has every callback (success, failure, error) suppressed
when the outcome arrives: the settlement produces no event of its id, while
the settlement itself is processed normally (the underlying work was
already launched at dispatch and is not aborted). -/
theorem C3_cancel_semantics :
    (∀ (w : World) (e : TaskInfo) (rest : List TaskInfo),
      w.tasks = e :: rest → e.id ∈ w.taskCancelSet →
      _step w = _step
        { w with
          tasks := rest,
          taskCancelSet := w.taskCancelSet.erase e.id,
          runningTasks := w.runningTasks.filter (fun p => p.1 ≠ e.id) }) ∧
    (∀ (w : World) (k : Nat) (r : Reaction) (oc : Settlement),
      w.pending[k]? = some r → r.sessionId = w.sessionId →
      r.task.id ∈ w.taskCancelSet →
      r.task.id ∉ w.tasks.map (fun t => t.id) →
      ∃ new, (exec w (Action.settle k oc)).trace = w.trace ++ new ∧
        ∀ ev ∈ new, eventId ev ≠ r.task.id) := by
  constructor
  · intro w e rest h hc
    exact _step_cons_cancelled w e rest h hc
  · intro w k r oc hk hs hcn hq
    simp only [exec, hk]
    rw [settleReaction_cancelled { w with pending := w.pending.eraseIdx k }
      r oc hs hcn]
    have key : ∀ (X : World), X.trace = w.trace → X.tasks = w.tasks →
        ∃ new, (_step X).trace = w.trace ++ new ∧
          ∀ ev ∈ new, eventId ev ≠ r.task.id := by
      intro X hXt hXk
      obtain ⟨new, h1, h2⟩ := _step_trace X
      refine ⟨new, by rw [h1, hXt], ?_⟩
      intro ev hev heq
      have h3 := h2 ev hev
      rw [hXk, heq] at h3
      exact hq h3
    by_cases hw : r.task.donotWaitAsync
    · rw [if_neg (by simp [hw])]
      exact ⟨[], by simp, by simp⟩
    · rw [if_pos (by simp [hw])]
      exact key _ rfl rfl

/-- Witness for C3: a cancelled queued entry is skipped; a cancelled
in-flight entry settles with no events. -/
theorem C3_cancel_semantics_witness :
    (_step (run [Action.add (promiseTask "blk"), Action.add (plainTask "x"),
        Action.cancel 2]) = _step
      { (run [Action.add (promiseTask "blk"), Action.add (plainTask "x"),
          Action.cancel 2]) with
        tasks := [],
        taskCancelSet := (run [Action.add (promiseTask "blk"),
          Action.add (plainTask "x"), Action.cancel 2]).taskCancelSet.erase 2,
        runningTasks := (run [Action.add (promiseTask "blk"),
          Action.add (plainTask "x"),
          Action.cancel 2]).runningTasks.filter (fun p => p.1 ≠ 2) }) ∧
    (∃ new, (exec (run [Action.add (promiseTask "a"), Action.cancel 1])
        (Action.settle 0 Settlement.fulfilled)).trace =
      (run [Action.add (promiseTask "a"), Action.cancel 1]).trace ++ new ∧
        ∀ ev ∈ new, eventId ev ≠ 1) :=
  ⟨C3_cancel_semantics.1 (run [Action.add (promiseTask "blk"),
      Action.add (plainTask "x"), Action.cancel 2])
      ⟨plainTask "x", 2⟩ [] (by decide) (by decide),
   C3_cancel_semantics.2 (run [Action.add (promiseTask "a"),
      Action.cancel 1]) 0 ⟨⟨promiseTask "a", 1⟩, 0⟩ Settlement.fulfilled
      (by decide) (by decide) (by decide) (by decide)⟩

/-- C1: wait-mode entries deliver strictly in submission order.  For every
sequence of external events consisting solely of wait-mode effect-free
submissions and promise settlements (in any order, with any latency), if
the callable of the entry with identifier `j` begins executing at trace
position `q`, then for every earlier submission `i < j` the full outcome of
entry `i` — value or error — was already delivered at some strictly earlier
trace position.  (The count bound keeps the 32-bit identifier computation
injective; identifiers are assigned `1, 2, 3, ...` in submission order.) -/
theorem C1_wait_order (acts : List Action)
    (hacts : ∀ a ∈ acts, orderedAct a = true)
    (hbound : acts.length + 1 ≤ 2 ^ 32)
    (i j q : Nat) (hi : 0 < i) (hij : i < j)
    (hq : (run acts).trace[q]? = some (Event.bodyRun j)) :
    ∃ p, p < q ∧
      ((run acts).trace[p]? = some (Event.valueDelivered i) ∨
        (run acts).trace[p]? = some (Event.errorDelivered i)) := by
  obtain ⟨specs, hInv⟩ := C1Inv_run acts [] create C1Inv_init hacts
    (by simpa using hbound)
  obtain ⟨hpure, hphase⟩ := hInv
  have hmain : sortedIds (run acts).trace ∧
      (Event.bodyRun j ∈ (run acts).trace →
        Event.valueDelivered i ∈ (run acts).trace ∨
          Event.errorDelivered i ∈ (run acts).trace) := by
    rcases hphase with ⟨hw, hsort, hle, hdel⟩ |
      ⟨d, td, hd, hget, htres, hw, hsort, hle, hdel⟩
    · refine ⟨hsort, fun hmem => ?_⟩
      have hj := hle _ hmem
      have hj' : j ≤ specs.length := by simpa [eventId] using hj
      exact hdel i hi (by omega)
    · refine ⟨hsort, fun hmem => ?_⟩
      have hj := hle _ hmem
      have hj' : j ≤ d + 1 := by simpa [eventId] using hj
      exact hdel i hi (by omega)
  obtain ⟨hsort, hdeliv⟩ := hmain
  have hmemq : Event.bodyRun j ∈ (run acts).trace := List.getElem?_mem hq
  have key : ∀ (ev : Event) (p : Nat), (run acts).trace[p]? = some ev →
      eventId ev = i → p < q := by
    intro ev p hp hid
    by_contra hnot
    obtain ⟨hql, hqe⟩ := List.getElem?_eq_some_iff.mp hq
    obtain ⟨hpl, hpe⟩ := List.getElem?_eq_some_iff.mp hp
    have hne : q ≠ p := by
      intro hEq
      rw [hEq] at hq
      rw [hp] at hq
      injection hq with hev
      rw [hev] at hid
      simp [eventId] at hid
      omega
    have hqp : q < p := by omega
    have hpar := (List.pairwise_iff_getElem.mp hsort) q p hql hpl hqp
    rw [hqe, hpe] at hpar
    rw [hid] at hpar
    simp only [eventId] at hpar
    omega
  rcases hdeliv hmemq with hdel2 | hdel2
  · obtain ⟨p, hp⟩ := List.getElem?_of_mem hdel2
    exact ⟨p, key _ p hp rfl, Or.inl hp⟩
  · obtain ⟨p, hp⟩ := List.getElem?_of_mem hdel2
    exact ⟨p, key _ p hp rfl, Or.inr hp⟩

/-- Witness for C1: two wait-mode synchronous submissions; entry 2's body
runs at position 3, entry 1's value was delivered earlier. -/
theorem C1_wait_order_witness :
    ∃ p, p < 3 ∧
      ((run [Action.add (plainTask "a"),
          Action.add (plainTask "b")]).trace[p]? =
        some (Event.valueDelivered 1) ∨
        (run [Action.add (plainTask "a"),
          Action.add (plainTask "b")]).trace[p]? =
        some (Event.errorDelivered 1)) :=
  C1_wait_order [Action.add (plainTask "a"), Action.add (plainTask "b")]
    (by decide) (by norm_num) 1 2 3 (by decide) (by decide) (by decide)

/-- C9 counterexample: cancelling an identifier the scheduler never
observes (here: one that was never submitted) leaves it in the cancellation
set permanently — after the queue has fully drained (no queued entries, no
pending settlements) the identifier is still recorded, refuting "no
cancelled identifier remains in the set as a permanent record". -/
theorem C9_cex :
    (run [Action.cancel 999, Action.add (plainTask "x"),
        Action.settle 0 Settlement.fulfilled]).taskCancelSet = [999] ∧
    (run [Action.cancel 999, Action.add (plainTask "x"),
        Action.settle 0 Settlement.fulfilled]).tasks = [] ∧
    (run [Action.cancel 999, Action.add (plainTask "x"),
        Action.settle 0 Settlement.fulfilled]).pending = [] := by
  decide

/-- C9 amended: membership in the cancellation set is transient for
identifiers the scheduler actually observes: the identifier is removed at
the moment its queued entry is popped, or at the moment its current-epoch
settlement is delivered (here stated with effect-free queued bodies, which
cannot re-add marks).  Identifiers never observed (unknown, or whose entry
already completed) remain in the set until the next `clear()`. -/
theorem C9_amended :
    (∀ (w : World) (e : TaskInfo) (rest : List TaskInfo),
      w.tasks = e :: rest → e.id ∈ w.taskCancelSet →
      w.taskCancelSet.Nodup → (∀ t ∈ rest, t.effects = []) →
      e.id ∉ (_step w).taskCancelSet) ∧
    (∀ (w : World) (k : Nat) (r : Reaction) (oc : Settlement),
      w.pending[k]? = some r → r.sessionId = w.sessionId →
      r.task.id ∈ w.taskCancelSet → w.taskCancelSet.Nodup →
      (∀ t ∈ w.tasks, t.effects = []) →
      r.task.id ∉ (exec w (Action.settle k oc)).taskCancelSet) := by
  constructor
  · intro w e rest h hc hnd hpure
    rw [_step_cons_cancelled w e rest h hc]
    intro hmem
    have h1 := _step_cancel_subset
      { w with
        tasks := rest,
        taskCancelSet := w.taskCancelSet.erase e.id,
        runningTasks := w.runningTasks.filter (fun p => p.1 ≠ e.id) }
      hpure e.id hmem
    exact ((List.Nodup.mem_erase_iff hnd).mp h1).1 rfl
  · intro w k r oc hk hs hcn hnd hpure
    simp only [exec, hk]
    rw [settleReaction_cancelled { w with pending := w.pending.eraseIdx k }
      r oc hs hcn]
    have key : ∀ (X : World),
        X.taskCancelSet = w.taskCancelSet.erase r.task.id →
        X.tasks = w.tasks → r.task.id ∉ (_step X).taskCancelSet := by
      intro X hXc hXk hmem
      have h1 := _step_cancel_subset X (by rw [hXk]; exact hpure)
        r.task.id hmem
      rw [hXc] at h1
      exact ((List.Nodup.mem_erase_iff hnd).mp h1).1 rfl
    by_cases hw : r.task.donotWaitAsync
    · rw [if_neg (by simp [hw])]
      intro hmem
      exact ((List.Nodup.mem_erase_iff hnd).mp hmem).1 rfl
    · rw [if_pos (by simp [hw])]
      exact key _ rfl rfl

/-- Witness for C9's amended statement: both observation points at concrete
states. -/
theorem C9_amended_witness :
    2 ∉ (_step (run [Action.add (promiseTask "blk"),
        Action.add (plainTask "x"), Action.cancel 2])).taskCancelSet ∧
    1 ∉ (exec (run [Action.add (promiseTask "a"), Action.cancel 1])
        (Action.settle 0 Settlement.fulfilled)).taskCancelSet :=
  ⟨C9_amended.1 (run [Action.add (promiseTask "blk"),
      Action.add (plainTask "x"), Action.cancel 2]) ⟨plainTask "x", 2⟩ []
      (by decide) (by decide) (by decide) (by decide),
   C9_amended.2 (run [Action.add (promiseTask "a"), Action.cancel 1]) 0
      ⟨⟨promiseTask "a", 1⟩, 0⟩ Settlement.fulfilled (by decide) (by decide)
      (by decide) (by decide) (by decide)⟩

/-- C10: when a synchronous callable's body itself invokes `clear()`, the
stale context is abandoned wholesale: only the body-start event is traced —
the completion callback, the error handling and the loop advancement are
all skipped — and the state is exactly the post-`clear` state (empty queue,
empty cancellation set, empty running map, idle loop, epoch advanced, with
the pre-existing pending settlements left to be discarded by the epoch
guard). -/
theorem C10_clear_during_sync_body (w : World) (e : TaskInfo)
    (rest : List TaskInfo) (h : w.tasks = e :: rest)
    (hc : e.id ∉ w.taskCancelSet) (heff : e.effects = [BodyEff.clearAll])
    (hres : e.result = TResult.value ∨ e.result = TResult.thrown) :
    _step w =
      { nextId := w.nextId, running := false, runningTasks := [],
        taskCancelSet := [], sessionId := w.sessionId + 1, tasks := [],
        pending := w.pending, trace := w.trace ++ [Event.bodyRun e.id] } := by
  rw [_step_cons_live w e rest h hc]
  rcases hres with hres | hres <;>
    simp [handleFunctionTask, heff, hres, runEffects, bodyEffApply, clear,
      dispatchW]

/-- Witness for C10 at a concrete state: a queued task whose body clears
the manager. -/
theorem C10_clear_during_sync_body_witness :
    _step (run [Action.add (promiseTask "blk"),
        Action.add { plainTask "x" with effects := [BodyEff.clearAll] }]) =
      { nextId := (run [Action.add (promiseTask "blk"),
          Action.add { plainTask "x" with
            effects := [BodyEff.clearAll] }]).nextId,
        running := false, runningTasks := [], taskCancelSet := [],
        sessionId := (run [Action.add (promiseTask "blk"),
          Action.add { plainTask "x" with
            effects := [BodyEff.clearAll] }]).sessionId + 1,
        tasks := [],
        pending := (run [Action.add (promiseTask "blk"),
          Action.add { plainTask "x" with
            effects := [BodyEff.clearAll] }]).pending,
        trace := (run [Action.add (promiseTask "blk"),
          Action.add { plainTask "x" with
            effects := [BodyEff.clearAll] }]).trace ++
          [Event.bodyRun 2] } :=
  C10_clear_during_sync_body
    (run [Action.add (promiseTask "blk"),
      Action.add { plainTask "x" with effects := [BodyEff.clearAll] }])
    ⟨{ plainTask "x" with effects := [BodyEff.clearAll] }, 2⟩ []
    (by decide) (by decide) rfl (Or.inl rfl)

/-- C2: settling, after a `clear()`, a promise dispatched before it is a
complete no-op apart from consuming the promise: the state is exactly the
post-`clear` state with that reaction removed, and not a single event — no
callback, no diagnostic — is produced; a fresh effect-free submission made
after the `clear()` then executes normally (body, delivery, completion
callback). -/
theorem C2_epoch_guard (w : World) (k : Nat) (r : Reaction)
    (oc : Settlement) (t : ITask) (hk : w.pending[k]? = some r)
    (hs : r.sessionId ≤ w.sessionId) (ht : t.result = TResult.value)
    (hteff : t.effects = []) (htr : t.hasResolve = true) :
    exec (clear w) (Action.settle k oc) =
      { clear w with pending := w.pending.eraseIdx k } ∧
    (exec (clear w) (Action.settle k oc)).trace = w.trace ∧
    (addTask (exec (clear w) (Action.settle k oc)) t).1.trace =
      w.trace ++
        [Event.bodyRun ((addTask (exec (clear w) (Action.settle k oc)) t).2),
         Event.valueDelivered
           ((addTask (exec (clear w) (Action.settle k oc)) t).2),
         Event.resolveCb
           ((addTask (exec (clear w) (Action.settle k oc)) t).2)] := by
  have hk' : (clear w).pending[k]? = some r := hk
  have hstale : exec (clear w) (Action.settle k oc) =
      { clear w with pending := w.pending.eraseIdx k } := by
    simp only [exec, hk']
    exact settleReaction_stale _ r oc (by simp [clear]; omega)
  refine ⟨hstale, by rw [hstale]; rfl, ?_⟩
  rw [hstale]
  simp [addTask, _step, stepFuel, handleFunctionTask, handleAsyncTask,
    runEffects, checkAndClearCanceled, mapSet, ht, hteff, htr, clear]

/-- Witness for C2 at a concrete state: one in-flight promise, a `clear`,
its late settlement, then a fresh submission. -/
theorem C2_epoch_guard_witness :
    exec (clear (run [Action.add (promiseTask "blk")]))
        (Action.settle 0 Settlement.fulfilled) =
      { clear (run [Action.add (promiseTask "blk")]) with
        pending :=
          (run [Action.add (promiseTask "blk")]).pending.eraseIdx 0 } ∧
    (exec (clear (run [Action.add (promiseTask "blk")]))
        (Action.settle 0 Settlement.fulfilled)).trace =
      (run [Action.add (promiseTask "blk")]).trace ∧
    (addTask (exec (clear (run [Action.add (promiseTask "blk")]))
        (Action.settle 0 Settlement.fulfilled))
        (plainTask "fresh")).1.trace =
      (run [Action.add (promiseTask "blk")]).trace ++
        [Event.bodyRun ((addTask (exec (clear (run [Action.add
            (promiseTask "blk")])) (Action.settle 0 Settlement.fulfilled))
            (plainTask "fresh")).2),
         Event.valueDelivered ((addTask (exec (clear (run [Action.add
            (promiseTask "blk")])) (Action.settle 0 Settlement.fulfilled))
            (plainTask "fresh")).2),
         Event.resolveCb ((addTask (exec (clear (run [Action.add
            (promiseTask "blk")])) (Action.settle 0 Settlement.fulfilled))
            (plainTask "fresh")).2)] :=
  C2_epoch_guard (run [Action.add (promiseTask "blk")]) 0
    ⟨⟨promiseTask "blk", 1⟩, 0⟩ Settlement.fulfilled (plainTask "fresh")
    (by decide) (by decide) rfl rfl rfl

/-- C4: a current-epoch rejection of a non-cancelled entry invokes exactly
one error path, in strict precedence order: the failure callback when
supplied, else the generic-error callback when supplied, else the
asynchronous diagnostic naming the item's description; any further trace
events stem from other queued entries. -/
theorem C4_reject_precedence (w : World) (k : Nat) (r : Reaction)
    (hk : w.pending[k]? = some r) (hs : r.sessionId = w.sessionId)
    (hcn : r.task.id ∉ w.taskCancelSet)
    (hq : r.task.id ∉ w.tasks.map (fun t => t.id)) :
    ∃ tail,
      (exec w (Action.settle k Settlement.rejected)).trace =
        w.trace ++ [Event.errorDelivered r.task.id,
          (if r.task.hasReject then Event.rejectCb r.task.id
           else if r.task.hasCatch then Event.catchCb r.task.id
           else Event.diagAsync r.task.id r.task.taskDesc)] ++ tail ∧
      ∀ ev ∈ tail, eventId ev ≠ r.task.id := by
  simp only [exec, hk]
  rw [settleReaction_rejected_live
    { w with pending := w.pending.eraseIdx k } r hs hcn]
  have key : ∀ (X : World),
      X.trace = w.trace ++ [Event.errorDelivered r.task.id,
        (if r.task.hasReject then Event.rejectCb r.task.id
         else if r.task.hasCatch then Event.catchCb r.task.id
         else Event.diagAsync r.task.id r.task.taskDesc)] →
      X.tasks = w.tasks →
      ∃ tail, (_step X).trace =
        w.trace ++ [Event.errorDelivered r.task.id,
          (if r.task.hasReject then Event.rejectCb r.task.id
           else if r.task.hasCatch then Event.catchCb r.task.id
           else Event.diagAsync r.task.id r.task.taskDesc)] ++ tail ∧
        ∀ ev ∈ tail, eventId ev ≠ r.task.id := by
    intro X hXt hXk
    obtain ⟨new, h1, h2⟩ := _step_trace X
    refine ⟨new, by rw [h1, hXt], ?_⟩
    intro ev hev heq
    have h3 := h2 ev hev
    rw [hXk, heq] at h3
    exact hq h3
  by_cases hw : r.task.donotWaitAsync
  · rw [if_neg (by simp [hw])]
    exact ⟨[], by simp, by simp⟩
  · rw [if_pos (by simp [hw])]
    exact key _ rfl rfl

/-- Witness for C4 at a concrete state: a rejection with both a failure
callback and a generic-error callback supplied fires only the failure
callback. -/
theorem C4_reject_precedence_witness :
    ∃ tail,
      (exec (run [Action.add { promiseTask "r" with
          hasReject := true, hasCatch := true }])
        (Action.settle 0 Settlement.rejected)).trace =
        (run [Action.add { promiseTask "r" with
          hasReject := true, hasCatch := true }]).trace ++
        [Event.errorDelivered 1,
          (if true then Event.rejectCb 1
           else if true then Event.catchCb 1
           else Event.diagAsync 1 "r")] ++ tail ∧
      ∀ ev ∈ tail, eventId ev ≠ 1 :=
  C4_reject_precedence (run [Action.add { promiseTask "r" with
      hasReject := true, hasCatch := true }]) 0
    ⟨⟨{ promiseTask "r" with hasReject := true, hasCatch := true }, 1⟩, 0⟩
    (by decide) (by decide) (by decide) (by decide)

/-- C8: a synchronous raise (current epoch, not cancelled, effect-free
body) is delivered to the generic-error callback when supplied, else the
synchronous diagnostic carrying the item's description is emitted; the
dedicated failure callback is never invoked on this path; and the loop
advances — `_step` continues on the remaining queue. -/
theorem C8_sync_throw (w : World) (e : TaskInfo) (rest : List TaskInfo)
    (h : w.tasks = e :: rest) (hc : e.id ∉ w.taskCancelSet)
    (hres : e.result = TResult.thrown) (heff : e.effects = [])
    (hq : e.id ∉ rest.map (fun t => t.id)) :
    _step w = _step
      { w with
        tasks := rest,
        runningTasks := (mapSet w.runningTasks e.id e).filter
          (fun p => p.1 ≠ e.id),
        trace := w.trace ++ [Event.bodyRun e.id, Event.errorDelivered e.id,
          (if e.hasCatch then Event.catchCb e.id
           else Event.diagSync e.id e.taskDesc)] } ∧
    ∃ tail,
      (_step w).trace = w.trace ++ [Event.bodyRun e.id,
        Event.errorDelivered e.id,
        (if e.hasCatch then Event.catchCb e.id
         else Event.diagSync e.id e.taskDesc)] ++ tail ∧
      (∀ ev ∈ tail, eventId ev ≠ e.id) ∧
      Event.rejectCb e.id ∉ [Event.bodyRun e.id, Event.errorDelivered e.id,
        (if e.hasCatch then Event.catchCb e.id
         else Event.diagSync e.id e.taskDesc)] ++ tail := by
  have hstep : handleFunctionTask (dispatchW w e rest) e =
      ({ w with
        tasks := rest,
        runningTasks := (mapSet w.runningTasks e.id e).filter
          (fun p => p.1 ≠ e.id),
        trace := w.trace ++ [Event.bodyRun e.id, Event.errorDelivered e.id,
          (if e.hasCatch then Event.catchCb e.id
           else Event.diagSync e.id e.taskDesc)] }, true) := by
    by_cases hct : e.hasCatch <;>
      simp [handleFunctionTask, dispatchW, heff, hres, hct, runEffects]
  have heq : _step w = _step
      { w with
        tasks := rest,
        runningTasks := (mapSet w.runningTasks e.id e).filter
          (fun p => p.1 ≠ e.id),
        trace := w.trace ++ [Event.bodyRun e.id, Event.errorDelivered e.id,
          (if e.hasCatch then Event.catchCb e.id
           else Event.diagSync e.id e.taskDesc)] } := by
    rw [_step_cons_live w e rest h hc, hstep]
    rfl
  refine ⟨heq, ?_⟩
  obtain ⟨new, h1, h2⟩ := _step_trace
    { w with
      tasks := rest,
      runningTasks := (mapSet w.runningTasks e.id e).filter
        (fun p => p.1 ≠ e.id),
      trace := w.trace ++ [Event.bodyRun e.id, Event.errorDelivered e.id,
        (if e.hasCatch then Event.catchCb e.id
         else Event.diagSync e.id e.taskDesc)] }
  have hids : ∀ ev ∈ new, eventId ev ≠ e.id := by
    intro ev hev heqid
    have h3 : eventId ev ∈ rest.map (fun t => t.id) := h2 ev hev
    rw [heqid] at h3
    exact hq h3
  refine ⟨new, by rw [heq, h1], hids, ?_⟩
  intro hmem
  rcases List.mem_append.mp hmem with hmem | hmem
  · by_cases hct : e.hasCatch <;> simp [hct] at hmem
  · have := hids _ hmem
    simp [eventId] at this

/-- Witness for C8 at a concrete state: a catch-less throwing task emits
the synchronous diagnostic and the next queued task still runs. -/
theorem C8_sync_throw_witness :
    _step (run [Action.add (promiseTask "blk"),
        Action.add { plainTask "boom" with
          result := TResult.thrown, hasResolve := false },
        Action.add (plainTask "nxt")]) = _step
      { (run [Action.add (promiseTask "blk"),
          Action.add { plainTask "boom" with
            result := TResult.thrown, hasResolve := false },
          Action.add (plainTask "nxt")]) with
        tasks := [⟨plainTask "nxt", 3⟩],
        runningTasks := (mapSet (run [Action.add (promiseTask "blk"),
          Action.add { plainTask "boom" with
            result := TResult.thrown, hasResolve := false },
          Action.add (plainTask "nxt")]).runningTasks 2
            ⟨{ plainTask "boom" with
              result := TResult.thrown, hasResolve := false }, 2⟩).filter
          (fun p => p.1 ≠ 2),
        trace := (run [Action.add (promiseTask "blk"),
          Action.add { plainTask "boom" with
            result := TResult.thrown, hasResolve := false },
          Action.add (plainTask "nxt")]).trace ++
          [Event.bodyRun 2, Event.errorDelivered 2,
            (if ({ plainTask "boom" with
              result := TResult.thrown,
              hasResolve := false } : ITask).hasCatch then Event.catchCb 2
             else Event.diagSync 2 "boom")] } ∧
    ∃ tail,
      (_step (run [Action.add (promiseTask "blk"),
        Action.add { plainTask "boom" with
          result := TResult.thrown, hasResolve := false },
        Action.add (plainTask "nxt")])).trace =
        (run [Action.add (promiseTask "blk"),
          Action.add { plainTask "boom" with
            result := TResult.thrown, hasResolve := false },
          Action.add (plainTask "nxt")]).trace ++
        [Event.bodyRun 2, Event.errorDelivered 2,
          (if ({ plainTask "boom" with
            result := TResult.thrown,
            hasResolve := false } : ITask).hasCatch then Event.catchCb 2
           else Event.diagSync 2 "boom")] ++ tail ∧
      (∀ ev ∈ tail, eventId ev ≠ 2) ∧
      Event.rejectCb 2 ∉ [Event.bodyRun 2, Event.errorDelivered 2,
        (if ({ plainTask "boom" with
          result := TResult.thrown,
          hasResolve := false } : ITask).hasCatch then Event.catchCb 2
         else Event.diagSync 2 "boom")] ++ tail :=
  C8_sync_throw (run [Action.add (promiseTask "blk"),
      Action.add { plainTask "boom" with
        result := TResult.thrown, hasResolve := false },
      Action.add (plainTask "nxt")])
    ⟨{ plainTask "boom" with
        result := TResult.thrown,
        hasResolve := false }, 2⟩
    [⟨plainTask "nxt", 3⟩] (by decide) (by decide) rfl rfl (by decide)

/-- C6 counterexample: a synchronous entry whose body requests cancellation
of its own identifier in the window between pop and completion check still
has its completion callback invoked (the trace ends with `resolveCb 1`),
and the cancellation mark is left behind — refuting "the completion
callback is not invoked". -/
theorem C6_cex :
    (run [Action.add { plainTask "self" with
        effects := [BodyEff.cancel 1] }]).trace =
      [Event.bodyRun 1, Event.valueDelivered 1, Event.resolveCb 1] ∧
    (run [Action.add { plainTask "self" with
        effects := [BodyEff.cancel 1] }]).taskCancelSet = [1] := by
  decide

/-- C6 amended: for an entry returning an immediate value, cancellation
requested between the pop and the completion check is not honored: the
completion callback is invoked anyway — the synchronous delivery path
checks only the epoch, not the cancellation set. -/
theorem C6_amended (w : World) (e : TaskInfo) (rest : List TaskInfo)
    (h : w.tasks = e :: rest) (hc : e.id ∉ w.taskCancelSet)
    (hres : e.result = TResult.value)
    (heff : e.effects = [BodyEff.cancel e.id]) (hr : e.hasResolve = true) :
    ∃ tail, (_step w).trace =
      w.trace ++ [Event.bodyRun e.id, Event.valueDelivered e.id,
        Event.resolveCb e.id] ++ tail := by
  have hstep : handleFunctionTask (dispatchW w e rest) e =
      ({ w with
        tasks := rest,
        taskCancelSet := w.taskCancelSet ++ [e.id],
        runningTasks := (mapSet w.runningTasks e.id e).filter
          (fun p => p.1 ≠ e.id),
        trace := w.trace ++ [Event.bodyRun e.id, Event.valueDelivered e.id,
          Event.resolveCb e.id] }, true) := by
    simp [handleFunctionTask, dispatchW, heff, hres, hr, runEffects,
      bodyEffApply, cancelTask, setAdd, hc]
  have heq : _step w = _step
      { w with
        tasks := rest,
        taskCancelSet := w.taskCancelSet ++ [e.id],
        runningTasks := (mapSet w.runningTasks e.id e).filter
          (fun p => p.1 ≠ e.id),
        trace := w.trace ++ [Event.bodyRun e.id, Event.valueDelivered e.id,
          Event.resolveCb e.id] } := by
    rw [_step_cons_live w e rest h hc, hstep]
    rfl
  rw [heq]
  obtain ⟨new, h1, _⟩ := _step_trace
    { w with
      tasks := rest,
      taskCancelSet := w.taskCancelSet ++ [e.id],
      runningTasks := (mapSet w.runningTasks e.id e).filter
        (fun p => p.1 ≠ e.id),
      trace := w.trace ++ [Event.bodyRun e.id, Event.valueDelivered e.id,
        Event.resolveCb e.id] }
  exact ⟨new, by rw [h1]⟩

/-- Witness for C6's amended statement at a concrete state. -/
theorem C6_amended_witness :
    ∃ tail, (_step (run [Action.add (promiseTask "blk"),
        Action.add { plainTask "self" with
          effects := [BodyEff.cancel 2] }])).trace =
      (run [Action.add (promiseTask "blk"),
        Action.add { plainTask "self" with
          effects := [BodyEff.cancel 2] }]).trace ++
        [Event.bodyRun 2, Event.valueDelivered 2, Event.resolveCb 2] ++
        tail :=
  C6_amended (run [Action.add (promiseTask "blk"),
      Action.add { plainTask "self" with effects := [BodyEff.cancel 2] }])
    ⟨{ plainTask "self" with effects := [BodyEff.cancel 2] }, 2⟩ []
    (by decide) (by decide) rfl rfl rfl

/-- C5 counterexample: after 31 `clear()` calls the bit-shifted identifier
computation `(nextId++ << sessionId) >>> 0` wraps in 32 bits: three
submissions in one and the same epoch receive the ids `2^31`, `0`, `2^31` —
neither strictly increasing nor pairwise distinct. -/
theorem C5_cex :
    (addTask (run (List.replicate 31 Action.clearAll)) (plainTask "a")).2 =
        2 ^ 31 ∧
    (addTask (addTask (run (List.replicate 31 Action.clearAll))
        (plainTask "a")).1 (plainTask "b")).2 = 0 ∧
    (addTask (addTask (addTask (run (List.replicate 31 Action.clearAll))
        (plainTask "a")).1 (plainTask "b")).1 (plainTask "c")).2 =
        2 ^ 31 ∧
    ¬((addTask (run (List.replicate 31 Action.clearAll)) (plainTask "a")).2
        < (addTask (addTask (run (List.replicate 31 Action.clearAll))
          (plainTask "a")).1 (plainTask "b")).2) := by
  decide

/-- C5 amended: within a single epoch (no `clear()` call and no clearing
body runs during the submissions) the identifiers returned by consecutive
submissions are strictly increasing and pairwise distinct, provided the
shifted counter stays within 32 bits; prior `clear()` calls may have
advanced the session counter arbitrarily, as reflected in the bound. -/
theorem C5_amended (w : World) (ts : List ITask)
    (hw : ∀ u ∈ w.tasks, BodyEff.clearAll ∉ u.effects)
    (hts : ∀ t ∈ ts, BodyEff.clearAll ∉ t.effects)
    (hbound : (w.nextId + ts.length) * 2 ^ (w.sessionId % 32) ≤ 2 ^ 32) :
    (submitIds w ts).Pairwise (· < ·) ∧
      (submitIds w ts).Pairwise (· ≠ ·) := by
  have hpow : ∀ s : Nat, 0 < 2 ^ (s % 32) := fun s =>
    Nat.pos_pow_of_pos _ (by norm_num)
  have main : ∀ (ts : List ITask) (w : World),
      (∀ u ∈ w.tasks, BodyEff.clearAll ∉ u.effects) →
      (∀ t ∈ ts, BodyEff.clearAll ∉ t.effects) →
      (w.nextId + ts.length) * 2 ^ (w.sessionId % 32) ≤ 2 ^ 32 →
      (submitIds w ts).Pairwise (· < ·) ∧
        ∀ x ∈ submitIds w ts,
          w.nextId * 2 ^ (w.sessionId % 32) ≤ x := by
    intro ts
    induction ts with
    | nil =>
        intro w _ _ _
        exact ⟨List.Pairwise.nil, by simp [submitIds]⟩
    | cons t ts ih =>
        intro w hw2 hts2 hbound2
        obtain ⟨hn1, hs1, hq1, hid⟩ := addTask_noClear w t hw2
          (hts2 t (List.mem_cons_self t ts))
        have hsum_le : w.nextId + (ts.length + 1) ≤
            (w.nextId + (ts.length + 1)) * 2 ^ (w.sessionId % 32) :=
          Nat.le_mul_of_pos_right _ (hpow w.sessionId)
        have hlen : (t :: ts).length = ts.length + 1 := rfl
        rw [hlen] at hbound2
        have hnext_lt : w.nextId < 2 ^ 32 := by omega
        have hprod_lt : w.nextId * 2 ^ (w.sessionId % 32) < 2 ^ 32 := by
          have hmul : w.nextId * 2 ^ (w.sessionId % 32) <
              (w.nextId + (ts.length + 1)) * 2 ^ (w.sessionId % 32) :=
            mul_lt_mul_of_pos_right (by omega) (hpow w.sessionId)
          omega
        have hid' : (addTask w t).2 =
            w.nextId * 2 ^ (w.sessionId % 32) := by
          rw [hid, Nat.mod_eq_of_lt hnext_lt, Nat.mod_eq_of_lt hprod_lt]
        have hbound3 : ((addTask w t).1.nextId + ts.length) *
            2 ^ ((addTask w t).1.sessionId % 32) ≤ 2 ^ 32 := by
          rw [hn1, hs1]
          have harith : w.nextId + 1 + ts.length =
              w.nextId + (ts.length + 1) := by omega
          rw [harith]
          exact hbound2
        obtain ⟨hpw, hlb⟩ := ih (addTask w t).1 hq1
          (fun u hu => hts2 u (List.mem_cons_of_mem t hu)) hbound3
        have hstep_mul : w.nextId * 2 ^ (w.sessionId % 32) <
            (w.nextId + 1) * 2 ^ (w.sessionId % 32) :=
          mul_lt_mul_of_pos_right (Nat.lt_succ_self _) (hpow w.sessionId)
        constructor
        · refine List.Pairwise.cons ?_ hpw
          intro x hx
          have h1 := hlb x hx
          rw [hn1, hs1] at h1
          rw [hid']
          omega
        · intro x hx
          rcases List.mem_cons.mp hx with hx | hx
          · rw [hx, hid']
          · have h1 := hlb x hx
            rw [hn1, hs1] at h1
            omega
  have h1 := (main ts w hw hts hbound).1
  exact ⟨h1, h1.imp (fun h => ne_of_lt h)⟩

/-- Witness for C5's amended statement: two submissions to a fresh manager
receive ids 1 and 2. -/
theorem C5_amended_witness :
    (submitIds create [plainTask "a", plainTask "b"]).Pairwise (· < ·) ∧
      (submitIds create [plainTask "a", plainTask "b"]).Pairwise (· ≠ ·) :=
  C5_amended create [plainTask "a", plainTask "b"] (by simp [create])
    (by intro t ht; fin_cases ht <;> simp [plainTask])
    (by norm_num [create])

end TaskMgr
